import Mathlib

/-!
Verification of the FinCrypt cryptographic envelope (files `fincrypt.py` and
`oaep.py`).  Byte strings are modelled as `List Nat` with every element below
256; text (Python `str`) is modelled as the list of its character codes, also
`List Nat`.  Python exceptions are modelled with `Option`/`Except`.  Modules of
the repository that are referenced by the two source files but whose code is
not available (`sha.py`, `ecc.py`, `aes.py`, `reedsolomon.py`, `asn1spec.py`)
are modelled from the specification's contracts; each such definition carries a
doc comment starting with `Modelled from the spec:`.
-/

/-! ## Byte-string helpers

`bytesToNatLE` is Python's `int.from_bytes(b, 'little')`; `natToBytesLE L v`
is Python's `v.to_bytes(L, 'little')` (it agrees with the Python call whenever
`v < 256 ^ L`, the only situations in which the sources reach it without
raising `OverflowError`). -/

def bytesToNatLE (l : List Nat) : Nat := l.foldr (fun b acc => b + 256 * acc) 0

def natToBytesLE : Nat → Nat → List Nat
  | 0, _ => []
  | L + 1, v => v % 256 :: natToBytesLE L (v / 256)

theorem bytesToNatLE_nil : bytesToNatLE [] = 0 := rfl

theorem bytesToNatLE_cons (b : Nat) (l : List Nat) :
    bytesToNatLE (b :: l) = b + 256 * bytesToNatLE l := rfl

theorem length_natToBytesLE (L v : Nat) : (natToBytesLE L v).length = L := by
  induction L generalizing v with
  | zero => rfl
  | succ L ih => simp [natToBytesLE, ih]

theorem mem_natToBytesLE {L v b : Nat} (h : b ∈ natToBytesLE L v) : b < 256 := by
  induction L generalizing v with
  | zero => simp [natToBytesLE] at h
  | succ L ih =>
    simp only [natToBytesLE, List.mem_cons] at h
    rcases h with h | h
    · subst h; exact Nat.mod_lt _ (by norm_num)
    · exact ih h

theorem bytesToNatLE_natToBytesLE (L : Nat) :
    ∀ v : Nat, v < 256 ^ L → bytesToNatLE (natToBytesLE L v) = v := by
  induction L with
  | zero =>
    intro v hv
    interval_cases v
    rfl
  | succ L ih =>
    intro v hv
    have hdiv : v / 256 < 256 ^ L := by
      rw [Nat.div_lt_iff_lt_mul (by norm_num : 0 < 256)]
      calc v < 256 ^ (L + 1) := hv
        _ = 256 ^ L * 256 := by ring
    simp only [natToBytesLE, bytesToNatLE_cons, ih (v / 256) hdiv]
    exact Nat.mod_add_div v 256

theorem natToBytesLE_bytesToNatLE :
    ∀ l : List Nat, (∀ b ∈ l, b < 256) → natToBytesLE l.length (bytesToNatLE l) = l := by
  intro l
  induction l with
  | nil => intro _; rfl
  | cons b l ih =>
    intro h
    have hb : b < 256 := h b (List.mem_cons_self b l)
    have hmod : (b + 256 * bytesToNatLE l) % 256 = b := by
      rw [Nat.add_mul_mod_self_left]
      exact Nat.mod_eq_of_lt hb
    have hdiv : (b + 256 * bytesToNatLE l) / 256 = bytesToNatLE l := by
      rw [Nat.add_mul_div_left _ _ (by norm_num : 0 < 256)]
      rw [Nat.div_eq_of_lt hb, Nat.zero_add]
    simp only [List.length_cons, natToBytesLE, bytesToNatLE_cons, hmod, hdiv]
    rw [ih (fun x hx => h x (List.mem_cons_of_mem _ hx))]

theorem bytesToNatLE_lt :
    ∀ l : List Nat, (∀ b ∈ l, b < 256) → bytesToNatLE l < 256 ^ l.length := by
  intro l
  induction l with
  | nil => intro _; simp [bytesToNatLE]
  | cons b l ih =>
    intro h
    have hb : b < 256 := h b (List.mem_cons_self b l)
    have ht : bytesToNatLE l < 256 ^ l.length :=
      ih (fun x hx => h x (List.mem_cons_of_mem _ hx))
    calc bytesToNatLE (b :: l) = b + 256 * bytesToNatLE l := rfl
      _ < 256 + 256 * bytesToNatLE l := by omega
      _ = 256 * (bytesToNatLE l + 1) := by ring
      _ ≤ 256 * 256 ^ l.length := by
          have : bytesToNatLE l + 1 ≤ 256 ^ l.length := ht
          exact Nat.mul_le_mul_left _ this
      _ = 256 ^ (b :: l).length := by rw [List.length_cons]; ring

theorem pow256_eq_two_pow (L : Nat) : (256 : Nat) ^ L = 2 ^ (8 * L) := by
  rw [pow_mul]; norm_num

theorem xor_lt_256_pow {x y L : Nat} (hx : x < 256 ^ L) (hy : y < 256 ^ L) :
    x ^^^ y < 256 ^ L := by
  rw [pow256_eq_two_pow] at hx hy ⊢
  exact Nat.xor_lt_two_pow hx hy

theorem xor_xor_cancel (a b : Nat) : (b ^^^ a) ^^^ b = a := by
  rw [Nat.xor_comm b a, Nat.xor_assoc, Nat.xor_self, Nat.xor_zero]

/-! ## SHAKE256 and the OAEP padding (`oaep.py`) -/

/-- Modelled from the spec: SHAKE256 is an extendable-output hash producing a
digest of the requested length (§4.1 "SHAKE256 (requested-length digest)"); the
concrete hash internals are interchangeable primitives explicitly out of scope
(§1), so a deterministic stand-in mixing function is used.  The only
properties the sources rely on are determinism and the output length. -/
def SHAKE256digest (input : List Nat) (outlen : Nat) : List Nat :=
  natToBytesLE outlen ((bytesToNatLE input * 1103515245 + 12345 + outlen) % 256 ^ outlen)

theorem length_SHAKE256digest (input : List Nat) (outlen : Nat) :
    (SHAKE256digest input outlen).length = outlen := length_natToBytesLE _ _

theorem mem_SHAKE256digest {input : List Nat} {outlen b : Nat}
    (h : b ∈ SHAKE256digest input outlen) : b < 256 := mem_natToBytesLE h

theorem bytesToNatLE_SHAKE256digest_lt (input : List Nat) (outlen : Nat) :
    bytesToNatLE (SHAKE256digest input outlen) < 256 ^ outlen := by
  have := bytesToNatLE_lt (SHAKE256digest input outlen)
    (fun b hb => mem_SHAKE256digest hb)
  rwa [length_SHAKE256digest] at this

/-- `oaep_pad` from `oaep.py`.  The random nonce `r` drawn on line 7 of the
source (`r = random.getrandbits(append_length)`) is made an explicit argument
so the function is deterministic; `oaepPadNonceSupport` below records the set
of values the source can actually draw.  Faithful to the source for the
instantiation used throughout the repository, `append_length = 32`. -/
def oaep_pad (r : Nat) (message : List Nat) (append_length : Nat) : List Nat :=
  let length := message.length
  let m := bytesToNatLE message
  let x := bytesToNatLE (SHAKE256digest (natToBytesLE append_length r) length) ^^^ m
  let y := bytesToNatLE (SHAKE256digest (natToBytesLE length x) append_length) ^^^ r
  natToBytesLE length x ++ natToBytesLE append_length y

/-- Support of the nonce draw in `oaep_pad`: line 7 of `oaep.py` is
`r = random.getrandbits(append_length)` with `append_length = 32`, and Python's
`random.getrandbits(k)` returns a uniform integer in `[0, 2 ^ k)`; hence every
nonce the source can draw satisfies `r < 2 ^ 32`. -/
def oaepPadNonceSupport (r : Nat) : Prop := r < 2 ^ 32

instance (r : Nat) : Decidable (oaepPadNonceSupport r) := by
  unfold oaepPadNonceSupport; infer_instance

/-- `oaep_unpad` from `oaep.py`.  Returns `none` exactly when the source
raises: for `append_length = 32` and input shorter than 32 bytes the call
`x.to_bytes(length, 'little')` receives a negative length and raises
`ValueError` (on byte-valued input no other failure is reachable: every
`to_bytes` value is below `256 ^ length`). -/
def oaep_unpad (data : List Nat) (append_length : Nat) : Option (List Nat) :=
  if data.length < append_length then none
  else
    let length := data.length - append_length
    let x := bytesToNatLE (data.take length)
    let y := bytesToNatLE (data.drop length)
    let r := natToBytesLE append_length
      (y ^^^ bytesToNatLE (SHAKE256digest (natToBytesLE length x) append_length))
    let message := x ^^^ bytesToNatLE (SHAKE256digest r length)
    some (natToBytesLE length message)

theorem length_oaep_pad (r : Nat) (m : List Nat) (a : Nat) :
    (oaep_pad r m a).length = m.length + a := by
  simp [oaep_pad, length_natToBytesLE]

theorem mem_oaep_pad {r : Nat} {m : List Nat} {a b : Nat}
    (h : b ∈ oaep_pad r m a) : b < 256 := by
  simp only [oaep_pad, List.mem_append] at h
  rcases h with h | h <;> exact mem_natToBytesLE h

/-- Round trip of the OAEP Feistel construction, for every nonce value that
fits in the 32-byte slot. -/
theorem oaep_roundtrip (m : List Nat) (r : Nat)
    (hm : ∀ b ∈ m, b < 256) (hr : r < 256 ^ 32) :
    oaep_unpad (oaep_pad r m 32) 32 = some m := by
  set L := m.length with hL
  have hmaskL : bytesToNatLE (SHAKE256digest (natToBytesLE 32 r) L) < 256 ^ L :=
    bytesToNatLE_SHAKE256digest_lt _ _
  have hmInt : bytesToNatLE m < 256 ^ L := by
    have := bytesToNatLE_lt m hm; rwa [← hL] at this
  set x := bytesToNatLE (SHAKE256digest (natToBytesLE 32 r) L) ^^^ bytesToNatLE m with hx
  have hxlt : x < 256 ^ L := xor_lt_256_pow hmaskL hmInt
  have hmask32 : bytesToNatLE (SHAKE256digest (natToBytesLE L x) 32) < 256 ^ 32 :=
    bytesToNatLE_SHAKE256digest_lt _ _
  set y := bytesToNatLE (SHAKE256digest (natToBytesLE L x) 32) ^^^ r with hy
  have hylt : y < 256 ^ 32 := xor_lt_256_pow hmask32 hr
  have hpad : oaep_pad r m 32 = natToBytesLE L x ++ natToBytesLE 32 y := rfl
  have hlen : (oaep_pad r m 32).length = L + 32 := by
    rw [hpad]; simp [length_natToBytesLE]
  rw [hpad]
  unfold oaep_unpad
  rw [List.length_append, length_natToBytesLE, length_natToBytesLE]
  have hnotlt : ¬ (L + 32 < 32) := by omega
  rw [if_neg hnotlt]
  have hLsub : L + 32 - 32 = L := by omega
  simp only [hLsub]
  rw [List.take_left' (length_natToBytesLE L x), List.drop_left' (length_natToBytesLE L x)]
  rw [bytesToNatLE_natToBytesLE L x hxlt, bytesToNatLE_natToBytesLE 32 y hylt]
  have hr_rec : y ^^^ bytesToNatLE (SHAKE256digest (natToBytesLE L x) 32) = r := by
    rw [hy]; exact xor_xor_cancel r _
  rw [hr_rec]
  have hm_rec : x ^^^ bytesToNatLE (SHAKE256digest (natToBytesLE 32 r) L) = bytesToNatLE m := by
    rw [hx]; exact xor_xor_cancel _ _
  rw [hm_rec]
  have : natToBytesLE L (bytesToNatLE m) = m := by
    rw [hL]; exact natToBytesLE_bytesToNatLE m hm
  rw [this]

/-! ## `get_blocks` (`fincrypt.py` lines 35-57) -/

/-- The per-block integer: the source reverses the block and accumulates
`char * 256 ** i`, i.e. it reads the block as a base-256 big-endian integer. -/
def blockNum (block : List Nat) : Nat := bytesToNatLE block.reverse

/-- `get_blocks` from `fincrypt.py`, via an explicit fuel argument (the fuel is
the list length, which bounds the number of slices `range(0, len, block_size)`
produces).  For `block_size = 0` Python's `range` raises `ValueError`; the
claims only instantiate `block_size = 1024`. -/
def get_blocksAux : Nat → List Nat → Nat → List Nat
  | 0, _, _ => []
  | fuel + 1, message, block_size =>
    if message.isEmpty ∨ block_size = 0 then []
    else blockNum (message.take block_size) ::
      get_blocksAux fuel (message.drop block_size) block_size

def get_blocks (message : List Nat) (block_size : Nat) : List Nat :=
  get_blocksAux message.length message block_size

/-- A message no longer than the block size yields exactly one block. -/
theorem get_blocks_single (h : List Nat) (hne : h ≠ []) (hbs : h.length ≤ 1024) :
    get_blocks h 1024 = [blockNum h] := by
  unfold get_blocks
  rcases h with _ | ⟨b, t⟩
  · exact absurd rfl hne
  · simp only [List.length_cons, get_blocksAux, List.isEmpty_cons]
    rw [if_neg (by simp)]
    rw [List.take_of_length_le hbs, List.drop_eq_nil_of_le hbs]
    rcases ht : t.length with _ | n
    · rfl
    · simp [get_blocksAux]

theorem bytesToNatLE_append_singleton :
    ∀ (l : List Nat) (b : Nat),
      bytesToNatLE (l ++ [b]) = bytesToNatLE l + 256 ^ l.length * b := by
  intro l
  induction l with
  | nil => intro b; simp [bytesToNatLE]
  | cons c r ih =>
    intro b
    simp only [List.cons_append, bytesToNatLE_cons, ih, List.length_cons]
    ring

/-- Reading a reversed list little-endian is the big-endian fold. -/
theorem blockNum_eq_foldl (h : List Nat) :
    blockNum h = h.foldl (fun acc c => acc * 256 + c) 0 := by
  have key : ∀ (h : List Nat) (a : Nat),
      bytesToNatLE h.reverse + a * 256 ^ h.length =
        h.foldl (fun acc c => acc * 256 + c) a := by
    intro h
    induction h with
    | nil => intro a; simp [bytesToNatLE]
    | cons b t ih =>
      intro a
      have hrev : (b :: t).reverse = t.reverse ++ [b] := by simp
      calc bytesToNatLE (b :: t).reverse + a * 256 ^ (b :: t).length
          = bytesToNatLE (t.reverse ++ [b]) + a * 256 ^ (t.length + 1) := by
            rw [hrev, List.length_cons]
        _ = bytesToNatLE t.reverse + 256 ^ t.length * b + a * 256 ^ (t.length + 1) := by
            rw [bytesToNatLE_append_singleton, List.length_reverse]
        _ = bytesToNatLE t.reverse + (a * 256 + b) * 256 ^ t.length := by ring
        _ = t.foldl (fun acc c => acc * 256 + c) (a * 256 + b) := ih (a * 256 + b)
        _ = (b :: t).foldl (fun acc c => acc * 256 + c) a := rfl
  have := key h 0
  unfold blockNum
  omega

/-! ## Claims about the OAEP layer and `get_blocks` -/

/-- Claim C2: for every byte string `m`,
`oaep_unpad (oaep_pad m 32) 32 = m`, and the padded output has length exactly
`m.length + 32`, for every value of the random nonce drawn inside `oaep_pad`
(every drawable nonce fits the 32-byte slot; the theorem covers the whole
slot `r < 2 ^ 256`). -/
theorem c2_oaep_pad_unpad_roundtrip (m : List Nat) (r : Nat)
    (hm : ∀ b ∈ m, b < 256) (hr : r < 2 ^ (8 * 32)) :
    oaep_unpad (oaep_pad r m 32) 32 = some m ∧
      (oaep_pad r m 32).length = m.length + 32 :=
  ⟨oaep_roundtrip m r hm (by rw [pow256_eq_two_pow]; exact hr),
   length_oaep_pad r m 32⟩

theorem c2_oaep_pad_unpad_roundtrip_witness :
    ((∀ b ∈ [1, 2, 3], b < 256) ∧ (5 : Nat) < 2 ^ (8 * 32)) ∧
      (oaep_unpad (oaep_pad 5 [1, 2, 3] 32) 32 = some [1, 2, 3] ∧
        (oaep_pad 5 [1, 2, 3] 32).length = 3 + 32) :=
  ⟨⟨by decide, by norm_num⟩,
   c2_oaep_pad_unpad_roundtrip [1, 2, 3] 5 (by decide) (by norm_num)⟩

/-- Claim C5 (code bug): the claim states that the nonce `r` embedded by
`oaep_pad` is drawn uniformly from the full 32-byte space `[0, 2 ^ 256)`, but
line 7 of `oaep.py` calls `random.getrandbits(append_length)` — drawing
`append_length = 32` BITS, not 32 bytes — so the support of the draw is
`[0, 2 ^ 32)`, a vanishing fraction of the 32-byte space the padding reserves
for it: e.g. the 32-byte value `2 ^ 32` can never be drawn. -/
theorem c5_nonce_support_too_small :
    ¬ oaepPadNonceSupport (2 ^ 32) ∧ (2 : Nat) ^ 32 < 2 ^ (8 * 32) := by
  constructor
  · unfold oaepPadNonceSupport; omega
  · exact Nat.pow_lt_pow_right one_lt_two (by norm_num)

/-- Claim C7: for every 64-byte digest `h`, `get_blocks h 1024` produces
exactly one block, and that block is the big-endian base-256 integer of `h`
(so the integer signed in `sign_message` and checked in
`authenticate_message` is the direct big-endian interpretation of the
SHA3-512 digest). -/
theorem c7_get_blocks_single_bigendian (h : List Nat) (hlen : h.length = 64) :
    get_blocks h 1024 = [h.foldl (fun acc c => acc * 256 + c) 0] := by
  have hne : h ≠ [] := by
    intro hn; rw [hn] at hlen; simp at hlen
  rw [get_blocks_single h hne (by omega), blockNum_eq_foldl]

theorem c7_get_blocks_single_bigendian_witness :
    (List.range 64).length = 64 ∧
      get_blocks (List.range 64) 1024 =
        [(List.range 64).foldl (fun acc c => acc * 256 + c) 0] :=
  ⟨by decide, c7_get_blocks_single_bigendian (List.range 64) (by decide)⟩

/-- Claim C10: `oaep_unpad` with `append_length = 32` is total on every input
of length at least 32 (returning a byte string of length exactly
`data.length - 32`; for length exactly 32 the empty string), and fails (the
source raises `ValueError`) on every input shorter than 32 bytes. -/
theorem c10_oaep_unpad_totality (data : List Nat) :
    (32 ≤ data.length →
      ∃ out, oaep_unpad data 32 = some out ∧ out.length = data.length - 32) ∧
    (data.length = 32 → oaep_unpad data 32 = some []) ∧
    (data.length < 32 → oaep_unpad data 32 = none) := by
  have hsome : 32 ≤ data.length →
      ∃ out, oaep_unpad data 32 = some out ∧ out.length = data.length - 32 := by
    intro h
    unfold oaep_unpad
    rw [if_neg (by omega)]
    exact ⟨_, rfl, length_natToBytesLE _ _⟩
  refine ⟨hsome, ?_, ?_⟩
  · intro h
    obtain ⟨out, ho, hl⟩ := hsome (by omega)
    have : out = [] := List.length_eq_zero.mp (by omega)
    rw [ho, this]
  · intro h
    unfold oaep_unpad
    rw [if_pos h]

theorem c10_oaep_unpad_totality_witness :
    (oaep_unpad (List.replicate 33 7) 32 = some [] ∨
      ∃ out, oaep_unpad (List.replicate 33 7) 32 = some out ∧
        out.length = (List.replicate 33 7).length - 32) ∧
    oaep_unpad [9] 32 = none :=
  ⟨Or.inr ((c10_oaep_unpad_totality (List.replicate 33 7)).1 (by decide)),
   (c10_oaep_unpad_totality [9]).2.2 (by decide)⟩

/-! ## Text armor: `strip_headers` (`fincrypt.py` lines 223-236)

`strip_headers` applies the anchored Python regex

  `(?:-+ (BEGIN FINCRYPT (?:PUBLIC |PRIVATE )?(?:KEY|MESSAGE)) -+\n)`
  `([a-zA-Z0-9\n\-_=]+[^\n])`
  `(?:\n-+ END FINCRYPT (?:PUBLIC |PRIVATE )?(?:KEY|MESSAGE) -+)`

to the input and returns `(group 1, group 2)`.  The matcher below reproduces
the regex engine's leftmost/greedy backtracking on this pattern: every
alternation in it is between literals with distinct first characters, and
each greedy dash run is followed by a required character that is not a dash,
so those pieces are deterministic; the one genuine backtracking point is the
boundary between the body class run and the single non-newline character,
which `matchBodyLoop` explores longest-first exactly as the engine does.
`re.match` anchors at the start only, so trailing text is permitted. -/

/-- The regex character class `[a-zA-Z0-9\n\-_=]` of the body group. -/
def isClassChar (c : Nat) : Bool :=
  decide ((97 ≤ c ∧ c ≤ 122) ∨ (65 ≤ c ∧ c ≤ 90) ∨ (48 ≤ c ∧ c ≤ 57) ∨
    c = 10 ∨ c = 45 ∨ c = 95 ∨ c = 61)

/-- The base64url alphabet together with the padding `=` (no newline). -/
def isB64Code (c : Nat) : Bool :=
  decide ((65 ≤ c ∧ c ≤ 90) ∨ (97 ≤ c ∧ c ≤ 122) ∨ (48 ≤ c ∧ c ≤ 57) ∨
    c = 45 ∨ c = 95 ∨ c = 61)

theorem isB64Code_class {c : Nat} (h : isB64Code c = true) :
    isClassChar c = true ∧ c ≠ 10 := by
  simp only [isB64Code, decide_eq_true_eq] at h
  simp only [isClassChar, decide_eq_true_eq, ne_eq]
  omega

/-- Match a literal string, returning the remainder. -/
def matchLit : List Nat → List Nat → Option (List Nat)
  | [], s => some s
  | _ :: _, [] => none
  | c :: cs, x :: xs => if x = c then matchLit cs xs else none

/-- Consume a (possibly empty) maximal run of dashes. -/
def dropDashes : List Nat → List Nat
  | [] => []
  | c :: rest => if c = 45 then dropDashes rest else c :: rest

/-- The regex piece `-+` (at least one dash, maximal munch). -/
def matchDashes1 : List Nat → Option (List Nat)
  | [] => none
  | c :: rest => if c = 45 then some (dropDashes rest) else none

def litBEGINFINCRYPT : List Nat := [66, 69, 71, 73, 78, 32, 70, 73, 78, 67, 82, 89, 80, 84, 32]
def litPUBLIC : List Nat := [80, 85, 66, 76, 73, 67, 32]
def litPRIVATE : List Nat := [80, 82, 73, 86, 65, 84, 69, 32]
def litKEY : List Nat := [75, 69, 89]
def litMESSAGE : List Nat := [77, 69, 83, 83, 65, 71, 69]
def litENDFINCRYPT : List Nat := [32, 69, 78, 68, 32, 70, 73, 78, 67, 82, 89, 80, 84, 32]

/-- The regex piece `(?:PUBLIC |PRIVATE )?` (returns the consumed text). -/
def matchOpt (s : List Nat) : List Nat × List Nat :=
  match matchLit litPUBLIC s with
  | some r => (litPUBLIC, r)
  | none =>
    match matchLit litPRIVATE s with
    | some r => (litPRIVATE, r)
    | none => ([], s)

/-- The regex piece `(?:KEY|MESSAGE)` (returns the consumed text). -/
def matchKw (s : List Nat) : Option (List Nat × List Nat) :=
  match matchLit litKEY s with
  | some r => some (litKEY, r)
  | none =>
    match matchLit litMESSAGE s with
    | some r => some (litMESSAGE, r)
    | none => none

/-- The footer `\n-+ END FINCRYPT (?:PUBLIC |PRIVATE )?(?:KEY|MESSAGE) -+`
(with arbitrary trailing text, as `re.match` does not anchor the end). -/
def matchFooter (s : List Nat) : Bool :=
  match matchLit [10] s with
  | none => false
  | some s1 =>
  match matchDashes1 s1 with
  | none => false
  | some s2 =>
  match matchLit litENDFINCRYPT s2 with
  | none => false
  | some s3 =>
  match matchKw (matchOpt s3).2 with
  | none => false
  | some (_, s5) =>
  match matchLit [32] s5 with
  | none => false
  | some s6 => (matchDashes1 s6).isSome

/-- Longest-first search for the split between the body class run and the
trailing `[^\n]` character: argument `k` is the candidate class-run length,
the `[^\n]` character sits at index `k`, the footer must match from `k + 1`,
and on success the captured body is the first `k + 1` characters. -/
def matchBodyLoop (t : List Nat) : Nat → Option (List Nat)
  | 0 => none
  | k + 1 =>
    match t[k + 1]? with
    | some c =>
      if c ≠ 10 ∧ matchFooter (t.drop (k + 2)) = true then some (t.take (k + 2))
      else matchBodyLoop t k
    | none => matchBodyLoop t k

/-- The body group `[a-zA-Z0-9\n\-_=]+[^\n]` followed by the footer. -/
def matchBody (t : List Nat) : Option (List Nat) :=
  matchBodyLoop t (t.takeWhile isClassChar).length

/-- `strip_headers` from `fincrypt.py`: returns `(label, body)` on a match
and `none` where the source returns `(None, None)`. -/
def stripHeaders (s : List Nat) : Option (List Nat × List Nat) :=
  match matchDashes1 s with
  | none => none
  | some s1 =>
  match matchLit [32] s1 with
  | none => none
  | some s2 =>
  match matchLit litBEGINFINCRYPT s2 with
  | none => none
  | some s3 =>
  match matchKw (matchOpt s3).2 with
  | none => none
  | some (kw, s5) =>
  match matchLit [32] s5 with
  | none => none
  | some s6 =>
  match matchDashes1 s6 with
  | none => none
  | some s7 =>
  match matchLit [10] s7 with
  | none => none
  | some s8 =>
  match matchBody s8 with
  | none => none
  | some body => some (litBEGINFINCRYPT ++ (matchOpt s3).1 ++ kw, body)

/-! ## Claim C8: shape of the accepted body -/

theorem take_le_takeWhile_all (p : Nat → Bool) :
    ∀ (t : List Nat) (n : Nat), n ≤ (t.takeWhile p).length →
      ∀ c ∈ t.take n, p c = true := by
  intro t
  induction t with
  | nil => intro n _ c hc; simp at hc
  | cons x xs ih =>
    intro n hn c hc
    cases n with
    | zero => simp at hc
    | succ n =>
      by_cases hp : p x
      · rw [List.takeWhile_cons_of_pos hp, List.length_cons] at hn
        simp only [List.take_succ_cons, List.mem_cons] at hc
        rcases hc with rfl | hc
        · exact hp
        · exact ih n (by omega) c hc
      · rw [List.takeWhile_cons_of_neg hp] at hn
        simp at hn

theorem matchBodyLoop_shape :
    ∀ (k : Nat) (t b : List Nat), k ≤ (t.takeWhile isClassChar).length →
      matchBodyLoop t k = some b →
      2 ≤ b.length ∧ (∀ c ∈ b.dropLast, isClassChar c = true) ∧
        (∀ c, b.getLast? = some c → c ≠ 10) := by
  intro k
  induction k with
  | zero => intro t b _ h; simp [matchBodyLoop] at h
  | succ k ih =>
    intro t b hk h
    unfold matchBodyLoop at h
    cases hget : t[k + 1]? with
    | none => rw [hget] at h; dsimp only at h; exact ih t b (by omega) h
    | some c =>
      rw [hget] at h
      dsimp only at h
      by_cases hcond : c ≠ 10 ∧ matchFooter (t.drop (k + 2)) = true
      · rw [if_pos hcond] at h
        have hb : b = t.take (k + 2) := (Option.some.inj h).symm
        obtain ⟨hlt, _⟩ := List.getElem?_eq_some_iff.mp hget
        subst hb
        have hlen : (t.take (k + 2)).length = k + 2 := by
          rw [List.length_take]; omega
        refine ⟨by omega, ?_, ?_⟩
        · intro c' hc'
          rw [List.dropLast_eq_take, hlen] at hc'
          have : (k + 2 - 1 : Nat) = k + 1 := by omega
          rw [this, List.take_take] at hc'
          have hmin : min (k + 1) (k + 2) = k + 1 := by omega
          rw [hmin] at hc'
          exact take_le_takeWhile_all isClassChar t (k + 1) hk c' hc'
        · intro c' hc'
          rw [List.getLast?_eq_getElem?, hlen] at hc'
          have : (k + 2 - 1 : Nat) = k + 1 := by omega
          rw [this, List.getElem?_take_of_lt (by omega), hget] at hc'
          cases hc'
          exact hcond.1
      · rw [if_neg hcond] at h; exact ih t b (by omega) h

/-- Any body returned by `stripHeaders`: all characters except the last are in
the class `[a-zA-Z0-9\n\-_=]`, the last character is an arbitrary non-newline
character, and the body has at least two characters. -/
theorem stripHeaders_body_shape (s hdr b : List Nat)
    (h : stripHeaders s = some (hdr, b)) :
    2 ≤ b.length ∧ (∀ c ∈ b.dropLast, isClassChar c = true) ∧
      (∀ c, b.getLast? = some c → c ≠ 10) := by
  unfold stripHeaders at h
  cases h1 : matchDashes1 s with
  | none => rw [h1] at h; exact absurd h (by simp)
  | some s1 =>
  rw [h1] at h
  dsimp only at h
  cases h2 : matchLit [32] s1 with
  | none => rw [h2] at h; exact absurd h (by simp)
  | some s2 =>
  rw [h2] at h
  dsimp only at h
  cases h3 : matchLit litBEGINFINCRYPT s2 with
  | none => rw [h3] at h; exact absurd h (by simp)
  | some s3 =>
  rw [h3] at h
  dsimp only at h
  cases h4 : matchKw (matchOpt s3).2 with
  | none => rw [h4] at h; exact absurd h (by simp)
  | some kws5 =>
  obtain ⟨kw, s5⟩ := kws5
  rw [h4] at h
  dsimp only at h
  cases h5 : matchLit [32] s5 with
  | none => rw [h5] at h; exact absurd h (by simp)
  | some s6 =>
  rw [h5] at h
  dsimp only at h
  cases h6 : matchDashes1 s6 with
  | none => rw [h6] at h; exact absurd h (by simp)
  | some s7 =>
  rw [h6] at h
  dsimp only at h
  cases h7 : matchLit [10] s7 with
  | none => rw [h7] at h; exact absurd h (by simp)
  | some s8 =>
  rw [h7] at h
  dsimp only at h
  cases h8 : matchBody s8 with
  | none => rw [h8] at h; exact absurd h (by simp)
  | some body =>
  rw [h8] at h
  dsimp only at h
  have hb : body = b := by
    have := Option.some.inj h
    exact congrArg Prod.snd this
  subst hb
  exact matchBodyLoop_shape _ s8 body (Nat.le_refl _) h8

/-- The text `- BEGIN FINCRYPT MESSAGE -\nA!\n- END FINCRYPT MESSAGE -`. -/
def c8CounterInput : List Nat :=
  [45, 32, 66, 69, 71, 73, 78, 32, 70, 73, 78, 67, 82, 89, 80, 84, 32, 77, 69,
   83, 83, 65, 71, 69, 32, 45, 10, 65, 33, 10, 45, 32, 69, 78, 68, 32, 70, 73,
   78, 67, 82, 89, 80, 84, 32, 77, 69, 83, 83, 65, 71, 69, 32, 45]

/-- The label `BEGIN FINCRYPT MESSAGE`. -/
def labelMESSAGE : List Nat :=
  [66, 69, 71, 73, 78, 32, 70, 73, 78, 67, 82, 89, 80, 84, 32, 77, 69, 83, 83,
   65, 71, 69]

/-- Claim C8 counterexample: `strip_headers` accepts the armored text whose
body line is `A!` and returns the body `A!`, which contains `!` (code 33), a
character outside `[A-Za-z0-9\-_=\n]`; so the accepted body does NOT always
match `[A-Za-z0-9\-_=\n]+` in full.  (The final `[^\n]` of the body group in
the source regex admits any non-newline character.) -/
theorem c8_body_alphabet_counterexample :
    stripHeaders c8CounterInput = some (labelMESSAGE, [65, 33]) ∧
      ¬ (∀ c ∈ [65, 33], isClassChar c = true) := by
  constructor
  · decide
  · decide

/-- Claim C8, amended: for every input accepted by `strip_headers`, every
character of the returned body except the last is in `[A-Za-z0-9\-_=\n]`, the
final character is an arbitrary non-newline character, and the body has at
least two characters (i.e. the body matches `[a-zA-Z0-9\n\-_=]+[^\n]`, not
`[A-Za-z0-9\-_=\n]+`). -/
theorem c8_body_alphabet_amended (s hdr b : List Nat)
    (h : stripHeaders s = some (hdr, b)) :
    2 ≤ b.length ∧ (∀ c ∈ b.dropLast, isClassChar c = true) ∧
      (∀ c, b.getLast? = some c → c ≠ 10) :=
  stripHeaders_body_shape s hdr b h

/-- The text `----- BEGIN FINCRYPT PUBLIC KEY -----\nQUJDRA==\n----- END
FINCRYPT PUBLIC KEY -----`. -/
def c8WitnessInput : List Nat :=
  [45, 45, 45, 45, 45, 32, 66, 69, 71, 73, 78, 32, 70, 73, 78, 67, 82, 89, 80,
   84, 32, 80, 85, 66, 76, 73, 67, 32, 75, 69, 89, 32, 45, 45, 45, 45, 45, 10,
   81, 85, 74, 68, 82, 65, 61, 61, 10, 45, 45, 45, 45, 45, 32, 69, 78, 68, 32,
   70, 73, 78, 67, 82, 89, 80, 84, 32, 80, 85, 66, 76, 73, 67, 32, 75, 69, 89,
   32, 45, 45, 45, 45, 45]

/-- The label `BEGIN FINCRYPT PUBLIC KEY`. -/
def labelPUBLICKEY : List Nat :=
  [66, 69, 71, 73, 78, 32, 70, 73, 78, 67, 82, 89, 80, 84, 32, 80, 85, 66, 76,
   73, 67, 32, 75, 69, 89]

theorem c8_body_alphabet_amended_witness :
    stripHeaders c8WitnessInput =
        some (labelPUBLICKEY, [81, 85, 74, 68, 82, 65, 61, 61]) ∧
      (2 ≤ ([81, 85, 74, 68, 82, 65, 61, 61] : List Nat).length ∧
        (∀ c ∈ ([81, 85, 74, 68, 82, 65, 61, 61] : List Nat).dropLast,
          isClassChar c = true) ∧
        (∀ c, ([81, 85, 74, 68, 82, 65, 61, 61] : List Nat).getLast? = some c →
          c ≠ 10)) :=
  ⟨by decide,
   c8_body_alphabet_amended c8WitnessInput labelPUBLICKEY
     [81, 85, 74, 68, 82, 65, 61, 61] (by decide)⟩

/-! ## base64url (Python `base64.urlsafe_b64encode`/`urlsafe_b64decode`)

Standard-library behaviour modelled per RFC 4648 §5 with `=` padding.  The
decoder here is strict; Python's decoder is lenient on some malformed inputs,
but every verified statement evaluates the decoder only on encoder outputs
(the only inputs the repository's round trips produce). -/

def b64Char (i : Nat) : Nat :=
  if i < 26 then 65 + i
  else if i < 52 then 97 + (i - 26)
  else if i < 62 then 48 + (i - 52)
  else if i = 62 then 45
  else 95

def b64CharInv (c : Nat) : Option Nat :=
  if 65 ≤ c ∧ c ≤ 90 then some (c - 65)
  else if 97 ≤ c ∧ c ≤ 122 then some (c - 97 + 26)
  else if 48 ≤ c ∧ c ≤ 57 then some (c - 48 + 52)
  else if c = 45 then some 62
  else if c = 95 then some 63
  else none

def b64encode : List Nat → List Nat
  | [] => []
  | [a] => [b64Char (a / 4), b64Char (a % 4 * 16), 61, 61]
  | [a, b] => [b64Char (a / 4), b64Char (a % 4 * 16 + b / 16), b64Char (b % 16 * 4), 61]
  | a :: b :: c :: rest =>
    b64Char (a / 4) :: b64Char (a % 4 * 16 + b / 16) ::
      b64Char (b % 16 * 4 + c / 64) :: b64Char (c % 64) :: b64encode rest

def b64decode : List Nat → Option (List Nat)
  | [] => some []
  | c1 :: c2 :: c3 :: c4 :: rest =>
    match b64CharInv c1 with
    | none => none
    | some x1 =>
    match b64CharInv c2 with
    | none => none
    | some x2 =>
    if c3 = 61 ∧ c4 = 61 ∧ rest = [] then some [x1 * 4 + x2 / 16]
    else if c4 = 61 ∧ rest = [] then
      match b64CharInv c3 with
      | none => none
      | some x3 => some [x1 * 4 + x2 / 16, x2 % 16 * 16 + x3 / 4]
    else
      match b64CharInv c3 with
      | none => none
      | some x3 =>
      match b64CharInv c4 with
      | none => none
      | some x4 =>
      (b64decode rest).map
        (fun tail => (x1 * 4 + x2 / 16) :: (x2 % 16 * 16 + x3 / 4) ::
          (x3 % 4 * 64 + x4) :: tail)
  | _ => none

theorem b64CharInv_b64Char : ∀ i, i < 64 → b64CharInv (b64Char i) = some i := by
  decide

theorem b64Char_ne_61 : ∀ i, i < 64 → b64Char i ≠ 61 := by decide

theorem isB64Code_b64Char (i : Nat) : isB64Code (b64Char i) = true := by
  simp only [b64Char, isB64Code, decide_eq_true_eq]
  split
  · omega
  · split
    · omega
    · split
      · omega
      · split
        · omega
        · omega

theorem b64decode_b64encode :
    ∀ l : List Nat, (∀ x ∈ l, x < 256) → b64decode (b64encode l) = some l
  | [], _ => rfl
  | [a], h => by
    have ha : a < 256 := h a (by simp)
    have h1 : a / 4 < 64 := by omega
    have h2 : a % 4 * 16 < 64 := by omega
    simp only [b64encode, b64decode, b64CharInv_b64Char _ h1, b64CharInv_b64Char _ h2,
      eq_self_iff_true, and_self, and_true, true_and, ite_true,
      Option.some.injEq, List.cons.injEq]
    omega
  | [a, b], h => by
    have ha : a < 256 := h a (by simp)
    have hb : b < 256 := h b (by simp)
    have h1 : a / 4 < 64 := by omega
    have h2 : a % 4 * 16 + b / 16 < 64 := by omega
    have h3 : b % 16 * 4 < 64 := by omega
    have hne3 : b64Char (b % 16 * 4) ≠ 61 := b64Char_ne_61 _ h3
    simp only [b64encode, b64decode, b64CharInv_b64Char _ h1, b64CharInv_b64Char _ h2,
      b64CharInv_b64Char _ h3, hne3, eq_self_iff_true, and_self, and_true, true_and,
      false_and, and_false, ite_true, ite_false, Option.some.injEq, List.cons.injEq]
    omega
  | [a, b, c], h => by
    have ha : a < 256 := h a (by simp)
    have hb : b < 256 := h b (by simp)
    have hc : c < 256 := h c (by simp)
    have h1 : a / 4 < 64 := by omega
    have h2 : a % 4 * 16 + b / 16 < 64 := by omega
    have h3 : b % 16 * 4 + c / 64 < 64 := by omega
    have h4 : c % 64 < 64 := by omega
    have hne3 : b64Char (b % 16 * 4 + c / 64) ≠ 61 := b64Char_ne_61 _ h3
    have hne4 : b64Char (c % 64) ≠ 61 := b64Char_ne_61 _ h4
    simp only [b64encode, b64decode, b64CharInv_b64Char _ h1, b64CharInv_b64Char _ h2,
      b64CharInv_b64Char _ h3, b64CharInv_b64Char _ h4, hne3, hne4,
      eq_self_iff_true, and_self, and_true, true_and, false_and, and_false,
      ite_true, ite_false, Option.map_some', Option.some.injEq, List.cons.injEq]
    omega
  | a :: b :: c :: d :: rest, h => by
    have ha : a < 256 := h a (by simp)
    have hb : b < 256 := h b (by simp)
    have hc : c < 256 := h c (by simp)
    have h1 : a / 4 < 64 := by omega
    have h2 : a % 4 * 16 + b / 16 < 64 := by omega
    have h3 : b % 16 * 4 + c / 64 < 64 := by omega
    have h4 : c % 64 < 64 := by omega
    have hne3 : b64Char (b % 16 * 4 + c / 64) ≠ 61 := b64Char_ne_61 _ h3
    have hne4 : b64Char (c % 64) ≠ 61 := b64Char_ne_61 _ h4
    have ih := b64decode_b64encode (d :: rest)
      (fun x hx => h x (by simp only [List.mem_cons] at hx ⊢; tauto))
    simp only [b64encode] at ih ⊢
    simp only [b64decode, b64CharInv_b64Char _ h1, b64CharInv_b64Char _ h2,
      b64CharInv_b64Char _ h3, b64CharInv_b64Char _ h4, hne3, hne4, ih,
      eq_self_iff_true, and_self, and_true, true_and, false_and, and_false,
      ite_true, ite_false, Option.map_some', Option.some.injEq, List.cons.injEq]
    omega

theorem mem_b64encode_isB64 :
    ∀ l : List Nat, ∀ x ∈ b64encode l, isB64Code x = true
  | [], x, hx => by simp [b64encode] at hx
  | [a], x, hx => by
    simp only [b64encode, List.mem_cons, List.not_mem_nil, or_false] at hx
    rcases hx with rfl | rfl | rfl | rfl
    · exact isB64Code_b64Char _
    · exact isB64Code_b64Char _
    · decide
    · decide
  | [a, b], x, hx => by
    simp only [b64encode, List.mem_cons, List.not_mem_nil, or_false] at hx
    rcases hx with rfl | rfl | rfl | rfl
    · exact isB64Code_b64Char _
    · exact isB64Code_b64Char _
    · exact isB64Code_b64Char _
    · decide
  | a :: b :: c :: rest, x, hx => by
    simp only [b64encode, List.mem_cons] at hx
    rcases hx with rfl | rfl | rfl | rfl | hx
    · exact isB64Code_b64Char _
    · exact isB64Code_b64Char _
    · exact isB64Code_b64Char _
    · exact isB64Code_b64Char _
    · exact mem_b64encode_isB64 rest x hx

theorem b64encode_length_ge :
    ∀ l : List Nat, l ≠ [] → 4 ≤ (b64encode l).length
  | [], h => absurd rfl h
  | [_], _ => by simp [b64encode]
  | [_, _], _ => by simp [b64encode]
  | _ :: _ :: _ :: rest, _ => by
    simp only [b64encode, List.length_cons]
    omega

/-! ## Reed–Solomon codec -/

/-- Modelled from the spec: the Reed–Solomon codec of §4.1 — `encode` appends
`parity` parity symbols to the message, `decode` recovers the original bytes
from an uncorrupted codeword and fails cleanly otherwise.  The claims never
exercise error *correction* (up to ⌊parity/2⌋ symbol errors in the real
codec), so the model's parity symbols are simple checksums: the round trip and
the clean-failure contract are preserved, which is all the verified
statements use. -/
def rsChecksum (b : List Nat) : Nat :=
  (b.foldl (fun acc x => acc + x) 0 + b.length) % 256

def rsEncode (parity : Nat) (b : List Nat) : List Nat :=
  b ++ List.replicate parity (rsChecksum b)

/-- Modelled from the spec: see `rsEncode`. -/
def rsDecode (parity : Nat) (d : List Nat) : Option (List Nat) :=
  if parity ≤ d.length then
    if d.drop (d.length - parity) =
        List.replicate parity (rsChecksum (d.take (d.length - parity))) then
      some (d.take (d.length - parity))
    else none
  else none

theorem length_rsEncode (p : Nat) (b : List Nat) :
    (rsEncode p b).length = b.length + p := by
  simp [rsEncode]

theorem rsDecode_rsEncode (p : Nat) (b : List Nat) :
    rsDecode p (rsEncode p b) = some b := by
  unfold rsDecode rsEncode
  have hlen : (b ++ List.replicate p (rsChecksum b)).length = b.length + p := by simp
  rw [hlen]
  rw [if_pos (by omega)]
  have hsub : b.length + p - p = b.length := by omega
  rw [hsub, List.take_left' rfl, List.drop_left' rfl]
  rw [if_pos rfl]

theorem mem_rsEncode {p x : Nat} {b : List Nat} (hb : ∀ y ∈ b, y < 256)
    (hx : x ∈ rsEncode p b) : x < 256 := by
  simp only [rsEncode, List.mem_append, List.mem_replicate] at hx
  rcases hx with hx | ⟨_, rfl⟩
  · exact hb x hx
  · exact Nat.mod_lt _ (by norm_num)

theorem rsEncode_ne_nil {p : Nat} {b : List Nat} (hp : 0 < p) :
    rsEncode p b ≠ [] := by
  intro h
  have := congrArg List.length h
  simp [rsEncode] at this
  omega

/-! ## DER-style container serialization

Modelled from the spec: §4.6 fixes the fields of the three ASN.1/DER
containers (message envelope, public keyfile, private keyfile) and requires
that they round-trip exactly ("DER-encodable; round-trips exactly").  The
byte-level encoding below is a faithful stand-in for `pyasn1`'s DER: each
field is length-prefixed and the decoder tolerates trailing bytes, as
`decode_ber` does (the source discards the second component of its result). -/

/-- Number of base-256 digits of `v` (0 for 0), via fuel so the definition is
structurally recursive and kernel-reducible. -/
def byteLenAux : Nat → Nat → Nat
  | 0, _ => 0
  | fuel + 1, v => if v = 0 then 0 else byteLenAux fuel (v / 256) + 1

def byteLen (v : Nat) : Nat := byteLenAux v v

theorem byteLenAux_fuel :
    ∀ fuel fuel' v, v ≤ fuel → v ≤ fuel' → byteLenAux fuel v = byteLenAux fuel' v := by
  intro fuel
  induction fuel with
  | zero =>
    intro fuel' v hv _
    have : v = 0 := by omega
    subst this
    cases fuel' <;> simp [byteLenAux]
  | succ fuel ih =>
    intro fuel' v hv hv'
    cases fuel' with
    | zero =>
      have : v = 0 := by omega
      subst this
      simp [byteLenAux]
    | succ fuel' =>
      simp only [byteLenAux]
      by_cases h0 : v = 0
      · simp [h0]
      · rw [if_neg h0, if_neg h0]
        have hd : v / 256 < v := Nat.div_lt_self (by omega) (by norm_num)
        rw [ih fuel' (v / 256) (by omega) (by omega)]

theorem byteLen_zero : byteLen 0 = 0 := rfl

theorem byteLen_succ (v : Nat) (h : v ≠ 0) : byteLen v = byteLen (v / 256) + 1 := by
  unfold byteLen
  cases hv : v with
  | zero => exact absurd hv h
  | succ n =>
    rw [← hv]
    have : byteLenAux v v = byteLenAux (v / 256) (v / 256) + 1 := by
      cases v with
      | zero => exact absurd rfl (hv ▸ h)
      | succ m =>
        simp only [byteLenAux, if_neg (by omega : ¬ (m + 1 = 0))]
        have hd : (m + 1) / 256 ≤ m := by
          have := Nat.div_lt_self (by omega : 0 < m + 1) (by norm_num : 1 < 256)
          omega
        rw [byteLenAux_fuel m ((m + 1) / 256) ((m + 1) / 256) hd (Nat.le_refl _)]
    rw [this]

theorem lt_pow_byteLen (v : Nat) : v < 256 ^ byteLen v := by
  induction v using Nat.strong_induction_on with
  | _ v ih =>
    by_cases h0 : v = 0
    · subst h0; simp [byteLen_zero]
    · rw [byteLen_succ v h0]
      have hd : v / 256 < v := Nat.div_lt_self (by omega) (by norm_num)
      have := ih (v / 256) hd
      calc v = 256 * (v / 256) + v % 256 := by omega
        _ < 256 * (256 ^ byteLen (v / 256)) := by
            have : v % 256 < 256 := Nat.mod_lt _ (by norm_num)
            omega
        _ = 256 ^ (byteLen (v / 256) + 1) := by ring

theorem byteLen_le {v k : Nat} (h : v < 256 ^ k) : byteLen v ≤ k := by
  induction k generalizing v with
  | zero =>
    have : v = 0 := by simpa using h
    subst this
    simp [byteLen_zero]
  | succ k ih =>
    by_cases h0 : v = 0
    · subst h0; simp [byteLen_zero]
    · rw [byteLen_succ v h0]
      have : v / 256 < 256 ^ k := by
        rw [Nat.div_lt_iff_lt_mul (by norm_num : 0 < 256)]
        calc v < 256 ^ (k + 1) := h
          _ = 256 ^ k * 256 := by ring
      have := ih this
      omega

/-- Length-prefixed byte field (four-byte little-endian length prefix). -/
def encBytes (b : List Nat) : List Nat := natToBytesLE 4 b.length ++ b

def decBytes (s : List Nat) : Option (List Nat × List Nat) :=
  if 4 ≤ s.length then
    let L := bytesToNatLE (s.take 4)
    let rest := s.drop 4
    if L ≤ rest.length then some (rest.take L, rest.drop L) else none
  else none

theorem decBytes_encBytes (b tail : List Nat) (hb : b.length < 256 ^ 4) :
    decBytes (encBytes b ++ tail) = some (b, tail) := by
  unfold decBytes encBytes
  rw [List.append_assoc]
  have h4 : (natToBytesLE 4 b.length).length = 4 := length_natToBytesLE _ _
  rw [List.take_left' h4, List.drop_left' h4]
  have hlen : (b ++ tail).length = b.length + tail.length := by simp
  rw [if_pos (by simp only [List.length_append, length_natToBytesLE]; omega)]
  rw [bytesToNatLE_natToBytesLE 4 b.length hb]
  rw [if_pos (by omega)]
  rw [List.take_left' rfl, List.drop_left' rfl]

/-- An integer field: the minimal little-endian digits, length-prefixed. -/
def encNat (v : Nat) : List Nat := encBytes (natToBytesLE (byteLen v) v)

def decNat (s : List Nat) : Option (Nat × List Nat) :=
  match decBytes s with
  | none => none
  | some (bs, rest) => some (bytesToNatLE bs, rest)

theorem decNat_encNat (v : Nat) (tail : List Nat) (hv : v < 256 ^ 4) :
    decNat (encNat v ++ tail) = some (v, tail) := by
  unfold decNat encNat
  have hlb : byteLen v ≤ 4 := byteLen_le hv
  rw [decBytes_encBytes _ tail (by
    rw [length_natToBytesLE]
    calc byteLen v ≤ 4 := hlb
      _ < 256 ^ 4 := by norm_num)]
  dsimp only
  rw [bytesToNatLE_natToBytesLE (byteLen v) v (lt_pow_byteLen v)]

/-- A `SEQUENCE OF INTEGER` field: element count then the elements. -/
def encNats : List Nat → List Nat
  | [] => []
  | v :: vs => encNat v ++ encNats vs

def encNatList (l : List Nat) : List Nat := natToBytesLE 4 l.length ++ encNats l

def decNats : Nat → List Nat → Option (List Nat × List Nat)
  | 0, s => some ([], s)
  | count + 1, s =>
    match decNat s with
    | none => none
    | some (v, rest) =>
    match decNats count rest with
    | none => none
    | some (vs, rest2) => some (v :: vs, rest2)

def decNatList (s : List Nat) : Option (List Nat × List Nat) :=
  if 4 ≤ s.length then decNats (bytesToNatLE (s.take 4)) (s.drop 4) else none

theorem decNats_encNats :
    ∀ (l : List Nat) (tail : List Nat), (∀ v ∈ l, v < 256 ^ 4) →
      decNats l.length (encNats l ++ tail) = some (l, tail)
  | [], tail, _ => rfl
  | v :: vs, tail, h => by
    have hv : v < 256 ^ 4 := h v (List.mem_cons_self _ _)
    simp only [encNats, List.length_cons, decNats, List.append_assoc]
    rw [decNat_encNat v (encNats vs ++ tail) hv]
    dsimp only
    rw [decNats_encNats vs tail (fun x hx => h x (List.mem_cons_of_mem _ hx))]

theorem decNatList_encNatList (l tail : List Nat)
    (hl : ∀ v ∈ l, v < 256 ^ 4) (hlen : l.length < 256 ^ 4) :
    decNatList (encNatList l ++ tail) = some (l, tail) := by
  unfold decNatList encNatList
  rw [List.append_assoc]
  have h4 : (natToBytesLE 4 l.length).length = 4 := length_natToBytesLE _ _
  rw [List.take_left' h4, List.drop_left' h4]
  rw [if_pos (by simp only [List.length_append, length_natToBytesLE]; omega)]
  rw [bytesToNatLE_natToBytesLE 4 l.length hlen]
  exact decNats_encNats l tail hl

/-! ## The three containers (`asn1spec.py`) -/

/-- Modelled from the spec: the `FinCryptMessage` envelope of §4.6 —
`message`: the ciphertext bytes, `key`: SEQUENCE OF INTEGER carrying the
ephemeral point, `signature`: SEQUENCE OF INTEGER carrying `(r, s)`.  The
integer sequences keep arbitrary arity, as `pyasn1`'s decoder does. -/
structure FinCryptMsg where
  message : List Nat
  key : List Nat
  signature : List Nat
deriving DecidableEq, Repr

/-- Modelled from the spec: DER encoding of the envelope; round-trips exactly. -/
def encodeEnvelope (e : FinCryptMsg) : List Nat :=
  encBytes e.message ++ (encNatList e.key ++ encNatList e.signature)

/-- Modelled from the spec: DER decoding of the envelope; tolerates trailing
bytes as `decode_ber` does. -/
def decodeEnvelope (s : List Nat) : Option FinCryptMsg :=
  match decBytes s with
  | none => none
  | some (msg, r1) =>
  match decNatList r1 with
  | none => none
  | some (key, r2) =>
  match decNatList r2 with
  | none => none
  | some (sig, _) => some ⟨msg, key, sig⟩

theorem decodeEnvelope_encodeEnvelope (e : FinCryptMsg)
    (hmsg : e.message.length < 256 ^ 4)
    (hkey : ∀ v ∈ e.key, v < 256 ^ 4) (hkeyl : e.key.length < 256 ^ 4)
    (hsig : ∀ v ∈ e.signature, v < 256 ^ 4) (hsigl : e.signature.length < 256 ^ 4) :
    decodeEnvelope (encodeEnvelope e) = some e := by
  unfold decodeEnvelope encodeEnvelope
  rw [decBytes_encBytes e.message _ hmsg]
  dsimp only
  rw [decNatList_encNatList e.key _ hkey hkeyl]
  dsimp only
  have := decNatList_encNatList e.signature [] hsig hsigl
  rw [List.append_nil] at this
  rw [this]

/-- Modelled from the spec: the public keyfile record of §4.6 (`kx`, `ky`,
`name`, `email`). -/
structure PubKeyRec where
  kx : Nat
  ky : Nat
  name : List Nat
  email : List Nat
deriving DecidableEq, Repr

/-- Modelled from the spec: the private keyfile record of §4.6 (`k`, `name`,
`email`). -/
structure PrivKeyRec where
  k : Nat
  name : List Nat
  email : List Nat
deriving DecidableEq, Repr

/-- Modelled from the spec: DER encoding of `FinCryptPublicKey`. -/
def encodePubKey (r : PubKeyRec) : List Nat :=
  encNat r.kx ++ (encNat r.ky ++ (encBytes r.name ++ encBytes r.email))

/-- Modelled from the spec: DER decoding of `FinCryptPublicKey`. -/
def decodePubKey (s : List Nat) : Option PubKeyRec :=
  match decNat s with
  | none => none
  | some (kx, r1) =>
  match decNat r1 with
  | none => none
  | some (ky, r2) =>
  match decBytes r2 with
  | none => none
  | some (name, r3) =>
  match decBytes r3 with
  | none => none
  | some (email, _) => some ⟨kx, ky, name, email⟩

/-- Modelled from the spec: DER encoding of `FinCryptPrivateKey`. -/
def encodePrivKey (r : PrivKeyRec) : List Nat :=
  encNat r.k ++ (encBytes r.name ++ encBytes r.email)

/-- Modelled from the spec: DER decoding of `FinCryptPrivateKey`. -/
def decodePrivKey (s : List Nat) : Option PrivKeyRec :=
  match decNat s with
  | none => none
  | some (k, r1) =>
  match decBytes r1 with
  | none => none
  | some (name, r2) =>
  match decBytes r2 with
  | none => none
  | some (email, _) => some ⟨k, name, email⟩

theorem decodePubKey_encodePubKey (r : PubKeyRec)
    (hkx : r.kx < 256 ^ 4) (hky : r.ky < 256 ^ 4)
    (hname : r.name.length < 256 ^ 4) (hemail : r.email.length < 256 ^ 4) :
    decodePubKey (encodePubKey r) = some r := by
  unfold decodePubKey encodePubKey
  rw [decNat_encNat r.kx _ hkx]
  dsimp only
  rw [decNat_encNat r.ky _ hky]
  dsimp only
  rw [decBytes_encBytes r.name _ hname]
  dsimp only
  have := decBytes_encBytes r.email [] hemail
  rw [List.append_nil] at this
  rw [this]

theorem decodePrivKey_encodePrivKey (r : PrivKeyRec)
    (hk : r.k < 256 ^ 4)
    (hname : r.name.length < 256 ^ 4) (hemail : r.email.length < 256 ^ 4) :
    decodePrivKey (encodePrivKey r) = some r := by
  unfold decodePrivKey encodePrivKey
  rw [decNat_encNat r.k _ hk]
  dsimp only
  rw [decBytes_encBytes r.name _ hname]
  dsimp only
  have := decBytes_encBytes r.email [] hemail
  rw [List.append_nil] at this
  rw [this]

/-! ## Armored keyfiles and the keyfile readers -/

theorem matchFooter_nil : matchFooter [] = false := rfl

theorem matchFooter_cons_ne {c : Nat} (xs : List Nat) (h : c ≠ 10) :
    matchFooter (c :: xs) = false := by
  unfold matchFooter matchLit
  rw [if_neg h]

theorem takeWhile_append_ge (p : Nat → Bool) :
    ∀ (B rest : List Nat), (∀ c ∈ B, p c = true) →
      B.length ≤ ((B ++ rest).takeWhile p).length
  | [], rest, _ => by simp
  | c :: B, rest, h => by
    have hc : p c = true := h c (List.mem_cons_self _ _)
    simp only [List.cons_append, List.takeWhile_cons_of_pos hc, List.length_cons]
    have := takeWhile_append_ge p B rest (fun x hx => h x (List.mem_cons_of_mem _ hx))
    omega

theorem matchBodyLoop_b64_success (B F : List Nat)
    (hB : ∀ c ∈ B, isB64Code c = true) (h2 : 2 ≤ B.length)
    (hF10 : ∀ c ∈ F, c ≠ 10)
    (hfoot : matchFooter (10 :: F) = true) :
    ∀ k, B.length - 1 ≤ k → matchBodyLoop (B ++ 10 :: F) k = some B := by
  intro k
  induction k with
  | zero => intro hk; omega
  | succ k ih =>
    intro hk
    set t := B ++ 10 :: F with ht
    by_cases hcase : k + 1 = B.length - 1
    · -- the successful candidate: class run of length B.length - 1,
      -- the final [^\n] character is the last character of B
      have hlt : k + 1 < B.length := by omega
      have hget : t[k + 1]? = B[k + 1]? := List.getElem?_append_left hlt
      cases hgetc : B[k + 1]? with
      | none =>
        have := List.getElem?_eq_none_iff.mp hgetc
        omega
      | some c =>
        have hmem : c ∈ B := List.getElem?_mem hgetc
        have hb64 : isB64Code c = true := hB _ hmem
        have hne10 : c ≠ 10 := (isB64Code_class hb64).2
        have hdrop : t.drop (k + 2) = 10 :: F := by
          have hkb : k + 2 = B.length := by omega
          rw [ht, hkb, List.drop_left' rfl]
        have htake : t.take (k + 2) = B := by
          have hkb : k + 2 = B.length := by omega
          rw [ht, hkb, List.take_left' rfl]
        unfold matchBodyLoop
        rw [hget, hgetc]
        dsimp only
        rw [if_pos ⟨hne10, by rw [hdrop]; exact hfoot⟩]
        rw [htake]
    · -- a candidate beyond the body: the footer check fails, recurse
      have hge : B.length ≤ k + 1 := by omega
      unfold matchBodyLoop
      have hrec := ih (by omega)
      cases hget : t[k + 1]? with
      | none => exact hrec
      | some c =>
        dsimp only
        by_cases hk1 : k + 1 = B.length
        · -- the character at the candidate split is the newline before the footer
          have : t[k + 1]? = some 10 := by
            rw [ht, List.getElem?_append_right (by omega)]
            rw [hk1]
            simp
          rw [hget] at this
          cases this
          rw [if_neg (by intro hcon; exact hcon.1 rfl)]
          exact hrec
        · -- the candidate split lies inside the footer: no newline follows it
          have hgt : B.length < k + 1 := by omega
          have hdrop : t.drop (k + 2) = F.drop (k + 1 - B.length) := by
            rw [ht]
            have h1 : (k + 2 : Nat) = B.length + (k + 2 - B.length) := by omega
            rw [h1, ← List.drop_drop, List.drop_left' rfl]
            have h2 : (k + 2 - B.length : Nat) = (k + 1 - B.length) + 1 := by omega
            rw [h2]
            simp [List.drop_succ_cons]
          have hfootfalse : matchFooter (t.drop (k + 2)) = false := by
            rw [hdrop]
            cases hd : F.drop (k + 1 - B.length) with
            | nil => exact matchFooter_nil
            | cons d ds =>
              have hdm : d ∈ F := by
                have : d ∈ F.drop (k + 1 - B.length) := by rw [hd]; simp
                exact List.mem_of_mem_drop this
              exact matchFooter_cons_ne ds (hF10 d hdm)
          rw [if_neg (by intro hcon; rw [hfootfalse] at hcon; exact Bool.noConfusion hcon.2)]
          exact hrec

theorem matchBody_b64 (B F : List Nat)
    (hB : ∀ c ∈ B, isB64Code c = true) (h2 : 2 ≤ B.length)
    (hF10 : ∀ c ∈ F, c ≠ 10)
    (hfoot : matchFooter (10 :: F) = true) :
    matchBody (B ++ 10 :: F) = some B := by
  unfold matchBody
  apply matchBodyLoop_b64_success B F hB h2 hF10 hfoot
  have hclass : ∀ c ∈ B, isClassChar c = true :=
    fun c hc => (isB64Code_class (hB c hc)).1
  have := takeWhile_append_ge isClassChar B (10 :: F) hclass
  omega

/-- The text `- END FINCRYPT PUBLIC KEY -`. -/
def pubFooterTail : List Nat :=
  [45, 32, 69, 78, 68, 32, 70, 73, 78, 67, 82, 89, 80, 84, 32, 80, 85, 66, 76,
   73, 67, 32, 75, 69, 89, 32, 45]

/-- The text `- END FINCRYPT PRIVATE KEY -`. -/
def privFooterTail : List Nat :=
  [45, 32, 69, 78, 68, 32, 70, 73, 78, 67, 82, 89, 80, 84, 32, 80, 82, 73, 86,
   65, 84, 69, 32, 75, 69, 89, 32, 45]

/-- The label `BEGIN FINCRYPT PRIVATE KEY`. -/
def labelPRIVATEKEY : List Nat :=
  [66, 69, 71, 73, 78, 32, 70, 73, 78, 67, 82, 89, 80, 84, 32, 80, 82, 73, 86,
   65, 84, 69, 32, 75, 69, 89]

/-- A validly armored public keyfile with body `B` (single-dash runs, which
the parser accepts: any dash run of length ≥ 1 matches). -/
def armorPub (B : List Nat) : List Nat :=
  [45, 32] ++ litBEGINFINCRYPT ++ litPUBLIC ++ litKEY ++ [32, 45, 10] ++
    (B ++ 10 :: pubFooterTail)

/-- A validly armored private keyfile with body `B`. -/
def armorPriv (B : List Nat) : List Nat :=
  [45, 32] ++ litBEGINFINCRYPT ++ litPRIVATE ++ litKEY ++ [32, 45, 10] ++
    (B ++ 10 :: privFooterTail)

theorem stripHeaders_armorPub (B : List Nat)
    (hB : ∀ c ∈ B, isB64Code c = true) (h2 : 2 ≤ B.length) :
    stripHeaders (armorPub B) = some (labelPUBLICKEY, B) := by
  have hbody : matchBody (B ++ 10 :: pubFooterTail) = some B :=
    matchBody_b64 B pubFooterTail hB h2 (by decide) (by decide)
  calc stripHeaders (armorPub B)
      = (match matchBody (B ++ 10 :: pubFooterTail) with
         | none => none
         | some body => some (litBEGINFINCRYPT ++ litPUBLIC ++ litKEY, body)) := rfl
    _ = some (labelPUBLICKEY, B) := by rw [hbody]; rfl

theorem stripHeaders_armorPriv (B : List Nat)
    (hB : ∀ c ∈ B, isB64Code c = true) (h2 : 2 ≤ B.length) :
    stripHeaders (armorPriv B) = some (labelPRIVATEKEY, B) := by
  have hbody : matchBody (B ++ 10 :: privFooterTail) = some B :=
    matchBody_b64 B privFooterTail hB h2 (by decide) (by decide)
  calc stripHeaders (armorPriv B)
      = (match matchBody (B ++ 10 :: privFooterTail) with
         | none => none
         | some body => some (litBEGINFINCRYPT ++ litPRIVATE ++ litKEY, body)) := rfl
    _ = some (labelPRIVATEKEY, B) := by rw [hbody]; rfl

/-- `read_public_key` up to (not including) the DER decode (`fincrypt.py`
lines 254-279): strip the armor, require the `BEGIN FINCRYPT PUBLIC KEY`
label, base64url-decode, then Reed–Solomon-decode with parity 30.  The result
is exactly the byte string the source hands to `decode_ber`. -/
def read_public_key_frame (txt : List Nat) : Option (List Nat) :=
  match stripHeaders txt with
  | none => none
  | some (hdr, body) =>
  if hdr = labelPUBLICKEY then
    match b64decode body with
    | none => none
    | some raw => rsDecode 30 raw
  else none

/-- `read_public_key` (`fincrypt.py` lines 254-279). -/
def read_public_key (txt : List Nat) : Option PubKeyRec :=
  match read_public_key_frame txt with
  | none => none
  | some d => decodePubKey d

/-- `read_private_key` up to (not including) the DER decode (`fincrypt.py`
lines 282-302): strip the armor, require the `BEGIN FINCRYPT PRIVATE KEY`
label, base64url-decode.  No Reed–Solomon layer is applied; the base64url
output goes to `decode_ber` unchanged. -/
def read_private_key_frame (txt : List Nat) : Option (List Nat) :=
  match stripHeaders txt with
  | none => none
  | some (hdr, body) =>
  if hdr = labelPRIVATEKEY then b64decode body else none

/-- `read_private_key` (`fincrypt.py` lines 282-302). -/
def read_private_key (txt : List Nat) : Option PrivKeyRec :=
  match read_private_key_frame txt with
  | none => none
  | some d => decodePrivKey d

theorem read_public_key_frame_armor (d : List Nat) (hd : ∀ x ∈ d, x < 256) :
    read_public_key_frame (armorPub (b64encode (rsEncode 30 d))) = some d := by
  have hne : rsEncode 30 d ≠ [] := rsEncode_ne_nil (by norm_num)
  have h2 : 2 ≤ (b64encode (rsEncode 30 d)).length := by
    have := b64encode_length_ge (rsEncode 30 d) hne
    omega
  unfold read_public_key_frame
  rw [stripHeaders_armorPub _ (mem_b64encode_isB64 _) h2]
  dsimp only
  rw [if_pos rfl]
  rw [b64decode_b64encode _ (fun x hx => mem_rsEncode hd hx)]
  dsimp only
  exact rsDecode_rsEncode 30 d

theorem read_private_key_frame_armor (d : List Nat) (hd : ∀ x ∈ d, x < 256)
    (hne : d ≠ []) :
    read_private_key_frame (armorPriv (b64encode d)) = some d := by
  have h2 : 2 ≤ (b64encode d).length := by
    have := b64encode_length_ge d hne
    omega
  unfold read_private_key_frame
  rw [stripHeaders_armorPriv _ (mem_b64encode_isB64 _) h2]
  dsimp only
  rw [if_pos rfl]
  exact b64decode_b64encode d hd

/-- Claim C9: the keyfile containers are framed asymmetrically.  For every
DER payload `d`: the public-key reader recovers `d` exactly from an armored
`rsEncode 30 d` (it strips a Reed–Solomon layer of parity 30 before handing
the bytes to the DER decoder), while the private-key reader hands the
base64url-decoded bytes to the DER decoder unchanged — armoring `d` directly
round-trips, and armoring `rsEncode 30 d` reaches the DER decoder still
RS-framed. -/
theorem c9_keyfile_framing_asymmetry (d : List Nat)
    (hd : ∀ x ∈ d, x < 256) (hne : d ≠ []) :
    read_public_key_frame (armorPub (b64encode (rsEncode 30 d))) = some d ∧
    read_private_key_frame (armorPriv (b64encode d)) = some d ∧
    read_private_key_frame (armorPriv (b64encode (rsEncode 30 d))) =
      some (rsEncode 30 d) := by
  refine ⟨read_public_key_frame_armor d hd, read_private_key_frame_armor d hd hne, ?_⟩
  exact read_private_key_frame_armor (rsEncode 30 d)
    (fun x hx => mem_rsEncode hd hx) (rsEncode_ne_nil (by norm_num))

theorem c9_keyfile_framing_asymmetry_witness :
    ((∀ x ∈ [1, 2, 3], x < 256) ∧ ([1, 2, 3] : List Nat) ≠ []) ∧
      (read_public_key_frame (armorPub (b64encode (rsEncode 30 [1, 2, 3]))) =
          some [1, 2, 3] ∧
        read_private_key_frame (armorPriv (b64encode [1, 2, 3])) = some [1, 2, 3] ∧
        read_private_key_frame (armorPriv (b64encode (rsEncode 30 [1, 2, 3]))) =
          some (rsEncode 30 [1, 2, 3])) :=
  ⟨⟨by decide, by decide⟩,
   c9_keyfile_framing_asymmetry [1, 2, 3] (by decide) (by decide)⟩

/-! ## The elliptic-curve model (`ecc.py`) -/

/-- Modelled from the spec: the order `n` of §4.1's prime-order subgroup.
The spec requires a prime `n` (≥ 256-bit in deployment); the §4.3-§4.5
algebra is independent of the size of `n`, so the model instantiates a small
prime to keep every definition kernel-computable. -/
def curveN : Nat := 11

instance : Fact (Nat.Prime curveN) := ⟨by norm_num [curveN]⟩

instance : NeZero curveN := ⟨by norm_num [curveN]⟩

/-- Scalars mod `n` (§4.1: "treat n as the modulus for all scalar
arithmetic"). -/
abbrev Scalar := ZMod curveN

/-- Modelled from the spec: the points of the prime-order subgroup, as a
cyclic group of order `n` generated by `G` — the model identifies a point
with its discrete logarithm base `G`, which realises exactly the group
contract of §4.1 (scalar multiplication, point addition) that §4.3-§4.5
rely on. -/
abbrev Point := ZMod curveN

def G : Point := 1

def pmul (k : Scalar) (P : Point) : Point := k * P

def padd (P Q : Point) : Point := P + Q

theorem pmul_G (u : Scalar) : pmul u G = u := mul_one u

/-- Modelled from the spec: the affine x-coordinate carried in the envelope;
any encoding of the point works for the §4.3-§4.5 algebra, the model takes
the canonical representative. -/
def xcoord (P : Point) : Nat := P.val

/-- Modelled from the spec: the affine y-coordinate, tied to `xcoord` by the
model curve equation `y = x² mod n`, so the on-curve check of §4.4 (decrypt
step 1: "verify on-curve") is meaningful. -/
def ycoord (P : Point) : Nat := P.val * P.val % curveN

/-- Modelled from the spec: rebuild a point from the two envelope integers
(`AffineCurvePoint(kx, ky, CURVE)`), verifying membership; fails (the source
constructor raises) off the curve. -/
def pointFromPair (x y : Nat) : Option Point :=
  if x < curveN ∧ y = x * x % curveN then some ((x : Nat) : ZMod curveN) else none

theorem pointFromPair_coords (P : Point) :
    pointFromPair (xcoord P) (ycoord P) = some P := by
  unfold pointFromPair xcoord ycoord
  rw [if_pos ⟨ZMod.val_lt P, rfl⟩, ZMod.natCast_rightInverse P]

/-- Fermat inverse mod `n`, structurally recursive so it kernel-computes. -/
def sPowAux : Nat → Scalar → Scalar
  | 0, _ => 1
  | n + 1, a => a * sPowAux n a

/-- Modelled from the spec: the modular inverse mod `n` used by §4.5. -/
def sInv (a : Scalar) : Scalar := sPowAux (curveN - 2) a

theorem sPowAux_eq_pow (n : Nat) (a : Scalar) : sPowAux n a = a ^ n := by
  induction n with
  | zero => rfl
  | succ n ih => rw [sPowAux, ih, ← pow_succ']

theorem sInv_eq_inv (a : Scalar) (h : a ≠ 0) : sInv a = a⁻¹ := by
  have hcard : a ^ (curveN - 1) = 1 := ZMod.pow_card_sub_one_eq_one h
  have hmul : a * sInv a = 1 := by
    rw [sInv, sPowAux_eq_pow, ← pow_succ']
    have he : curveN - 2 + 1 = curveN - 1 := by norm_num [curveN]
    rw [he]
    exact hcard
  exact (inv_eq_of_mul_eq_one_right hmul).symm

/-! ## ECDSA (`ecc.ECDSA`, reached through `sign_number`/`validate_number`) -/

/-- Modelled from the spec: one iteration of the §4.5 signing loop with the
ephemeral scalar `u` explicit; the `r = 0` / `s = 0` retry is modelled as
failure (`none`) — the source loop simply redraws `u` in that case. -/
def dsaSign (k : Scalar) (z : Nat) (u : Scalar) : Option (Nat × Nat) :=
  let rS : Scalar := ((xcoord (pmul u G) : Nat) : Scalar)
  let sS : Scalar := sInv u * ((z : Scalar) + rS * k)
  if rS = 0 ∨ sS = 0 then none else some (rS.val, sS.val)

/-- Modelled from the spec: §4.5 verification — reject `r, s` outside
`[1, n-1]`, then accept iff `(z·s⁻¹)·G + (r·s⁻¹)·Q` has x-coordinate `r`
mod `n`. -/
def dsaValidate (Q : Point) (r s z : Nat) : Bool :=
  if 1 ≤ r ∧ r ≤ curveN - 1 ∧ 1 ≤ s ∧ s ≤ curveN - 1 then
    decide (xcoord (padd (pmul ((z : Scalar) * sInv ((s : Nat) : Scalar)) G)
      (pmul (((r : Nat) : Scalar) * sInv ((s : Nat) : Scalar)) Q)) % curveN = r)
  else false

theorem dsaValidate_dsaSign (k u : Scalar) (z : Nat) (r s : Nat)
    (h : dsaSign k z u = some (r, s)) :
    dsaValidate (pmul k G) r s z = true := by
  unfold dsaSign at h
  set rS : Scalar := ((xcoord (pmul u G) : Nat) : Scalar) with hrS
  set sS : Scalar := sInv u * ((z : Scalar) + rS * k) with hsS
  by_cases hzero : rS = 0 ∨ sS = 0
  · rw [if_pos hzero] at h; exact absurd h (by simp)
  · rw [if_neg hzero] at h
    push_neg at hzero
    obtain ⟨hr0, hs0⟩ := hzero
    have hru : rS = u := by
      rw [hrS, pmul_G]
      unfold xcoord
      exact ZMod.natCast_rightInverse u
    have hu0 : u ≠ 0 := hru ▸ hr0
    obtain ⟨hrv, hsv⟩ : r = rS.val ∧ s = sS.val := by
      have := Option.some.inj h
      exact ⟨(congrArg Prod.fst this).symm, (congrArg Prod.snd this).symm⟩
    have hsS' : sS = u⁻¹ * ((z : Scalar) + u * k) := by
      rw [hsS, sInv_eq_inv u hu0, hru]
    have hz : u * sS = (z : Scalar) + u * k := by
      rw [hsS', ← mul_assoc, mul_inv_cancel₀ hu0, one_mul]
    unfold dsaValidate
    rw [if_pos ?ranges]
    case ranges =>
      have hrlt : rS.val < curveN := ZMod.val_lt rS
      have hslt : sS.val < curveN := ZMod.val_lt sS
      have hrne : rS.val ≠ 0 := fun hh => hr0 (ZMod.val_eq_zero rS |>.mp hh)
      have hsne : sS.val ≠ 0 := fun hh => hs0 (ZMod.val_eq_zero sS |>.mp hh)
      refine ⟨by omega, by omega, by omega, by omega⟩
    have hscast : ((s : Nat) : Scalar) = sS := by
      rw [hsv]; exact ZMod.natCast_rightInverse sS
    have hrcast : ((r : Nat) : Scalar) = u := by
      rw [hrv, hru]; exact ZMod.natCast_rightInverse u
    have hw : sInv ((s : Nat) : Scalar) = sS⁻¹ := by
      rw [hscast, sInv_eq_inv sS hs0]
    have hP : padd (pmul ((z : Scalar) * sInv ((s : Nat) : Scalar)) G)
        (pmul (((r : Nat) : Scalar) * sInv ((s : Nat) : Scalar)) (pmul k G)) = u := by
      unfold padd pmul G
      rw [hw, hrcast]
      calc (z : Scalar) * sS⁻¹ * 1 + u * sS⁻¹ * (k * 1)
          = sS⁻¹ * ((z : Scalar) + u * k) := by ring
        _ = sS⁻¹ * (u * sS) := by rw [hz]
        _ = u * (sS⁻¹ * sS) := by ring
        _ = u := by rw [inv_mul_cancel₀ hs0, mul_one]
    rw [hP]
    unfold xcoord
    have : u.val % curveN = u.val := Nat.mod_eq_of_lt (ZMod.val_lt u)
    rw [this, hrv, hru]
    simp

/-! ## KEM, KDF, SHA3-512 and AES-256-CBC models -/

/-- Modelled from the spec: §4.3 ECIES exchange, ephemeral scalar explicit —
returns `(R, S) = (u·G, u·Peer)`. -/
def eciesExchange (u : Scalar) (peer : Point) : Point × Point :=
  (pmul u G, pmul u peer)

/-- Modelled from the spec: §4.3 recovery — `S' = k·R`. -/
def eciesRecover (R : Point) (k : Scalar) : Point := pmul k R

/-- Modelled from the spec: SHA3-512 (§4.1) — deterministic fixed 64-byte
digest; the hash internals are interchangeable primitives out of scope (§1),
so a deterministic stand-in mixing function is used. -/
def SHA3_512 (m : List Nat) : List Nat :=
  natToBytesLE 64 ((bytesToNatLE m * 2654435761 + m.length + 99991) % 256 ^ 64)

theorem length_SHA3_512 (m : List Nat) : (SHA3_512 m).length = 64 :=
  length_natToBytesLE _ _

/-- Decimal digits of `v`, most significant first, via fuel so the definition
is structurally recursive. -/
def digitsRevAux : Nat → Nat → List Nat
  | 0, _ => []
  | fuel + 1, v => if v = 0 then [] else (48 + v % 10) :: digitsRevAux fuel (v / 10)

/-- The UTF-8/ASCII bytes of Python's `str(v)` for a natural number. -/
def decimalAscii (v : Nat) : List Nat :=
  if v = 0 then [48] else (digitsRevAux v v).reverse

/-- Modelled from the spec: `str(S)` of the shared-secret point is the
decimal string of its x-coordinate (§4.4 "K := SHA3-512(utf8(decimal_string(
S.x)))", §3 "contiguous slices of SHA3-512(str(S.x))"); `ecc.py`'s
`AffineCurvePoint.__str__` is not under `src/`. -/
def pointStr (S : Point) : List Nat := decimalAscii (xcoord S)

/-- The 64-byte key material `K` of §4.4: `SHA3_512(str(S).encode('utf-8'))`
in the source (`fincrypt.py` lines 140-142 and 173-175). -/
def kdfMaterial (S : Point) : List Nat := SHA3_512 (pointStr S)

/-- `key[:32]` — the AES-256 key slice (`fincrypt.py` lines 144 and 177). -/
def aesKeyOf (S : Point) : List Nat := (kdfMaterial S).take 32

/-- `key[32:48]` — the IV slice (`fincrypt.py` lines 144 and 177). -/
def ivOf (S : Point) : List Nat := ((kdfMaterial S).drop 32).take 16

def xorBytes (a b : List Nat) : List Nat := List.zipWith (fun x y => x ^^^ y) a b

theorem xorBytes_cancel :
    ∀ a b : List Nat, b.length = a.length → xorBytes (xorBytes a b) b = a
  | [], _, _ => by simp [xorBytes]
  | x :: a, [], h => by simp at h
  | x :: a, y :: b, h => by
    simp only [xorBytes, List.zipWith_cons_cons]
    rw [Nat.xor_assoc, Nat.xor_self, Nat.xor_zero]
    have := xorBytes_cancel a b (by simpa using h)
    unfold xorBytes at this
    rw [this]

theorem length_xorBytes (a b : List Nat) :
    (xorBytes a b).length = min a.length b.length := List.length_zipWith _ _ _

/-- Modelled from the spec: the keystream of the AES-256-CBC driver (§4.1) —
a keyed deterministic invertible byte transform; the cipher internals are
interchangeable primitives out of scope (§1), the contract the source uses
is that decryption with the same key and IV inverts encryption. -/
def keystream (key iv : List Nat) (len : Nat) : List Nat :=
  natToBytesLE len ((bytesToNatLE (key ++ iv) * 22695477 + 1 + len) % 256 ^ len)

/-- PKCS#7 padding applied by the `Encrypter` driver on the final feed
(pads with `p = 16 - len mod 16` bytes of value `p`, always 1..16). -/
def pkcs7pad (m : List Nat) : List Nat :=
  m ++ List.replicate (16 - m.length % 16) (16 - m.length % 16)

/-- PKCS#7 strip performed by the `Decrypter` driver; fails (the driver
raises) on invalid padding. -/
def pkcs7unpad (m : List Nat) : Option (List Nat) :=
  match m.getLast? with
  | none => none
  | some p =>
    if 1 ≤ p ∧ p ≤ 16 ∧ p ≤ m.length ∧
        m.drop (m.length - p) = List.replicate p p then
      some (m.take (m.length - p))
    else none

/-- Modelled from the spec: `Encrypter(AESModeOfOperationCBC(key, iv))` fed
the whole plaintext then flushed (`fincrypt.py` lines 144-148). -/
def aesEncrypt (key iv m : List Nat) : List Nat :=
  xorBytes (pkcs7pad m) (keystream key iv (pkcs7pad m).length)

/-- Modelled from the spec: the matching `Decrypter` (`fincrypt.py` lines
177-180); fails on a ciphertext that is empty or not a multiple of the
16-byte block size, or on invalid padding. -/
def aesDecrypt (key iv c : List Nat) : Option (List Nat) :=
  if c.length % 16 = 0 ∧ c.length ≠ 0 then
    pkcs7unpad (xorBytes c (keystream key iv c.length))
  else none

theorem length_pkcs7pad (m : List Nat) :
    (pkcs7pad m).length = m.length + (16 - m.length % 16) := by
  simp [pkcs7pad]

theorem pkcs7unpad_pkcs7pad (m : List Nat) : pkcs7unpad (pkcs7pad m) = some m := by
  set p := 16 - m.length % 16 with hp
  have hp1 : 1 ≤ p ∧ p ≤ 16 := by
    have := Nat.mod_lt m.length (y := 16) (by norm_num)
    omega
  have hlast : (pkcs7pad m).getLast? = some p := by
    unfold pkcs7pad
    rw [List.getLast?_append]
    have : (List.replicate p p).getLast? = some p := by
      cases hq : p with
      | zero => omega
      | succ q =>
        rw [List.replicate_succ']
        exact List.getLast?_concat _
    rw [this]
    rfl
  unfold pkcs7unpad
  rw [hlast]
  dsimp only
  have hlen : (pkcs7pad m).length = m.length + p := length_pkcs7pad m
  have hsub : (pkcs7pad m).length - p = m.length := by omega
  rw [if_pos ?cond]
  case cond =>
    refine ⟨hp1.1, hp1.2, by omega, ?_⟩
    rw [hsub]
    unfold pkcs7pad
    rw [List.drop_left' rfl]
  rw [hsub]
  unfold pkcs7pad
  rw [List.take_left' rfl]

theorem aesDecrypt_aesEncrypt (key iv m : List Nat) :
    aesDecrypt key iv (aesEncrypt key iv m) = some m := by
  have hks : (keystream key iv (pkcs7pad m).length).length = (pkcs7pad m).length :=
    length_natToBytesLE _ _
  have hctlen : (aesEncrypt key iv m).length = (pkcs7pad m).length := by
    unfold aesEncrypt
    rw [length_xorBytes, hks]
    omega
  have hpadlen : (pkcs7pad m).length = m.length + (16 - m.length % 16) :=
    length_pkcs7pad m
  unfold aesDecrypt
  rw [if_pos ?cond]
  case cond =>
    constructor
    · rw [hctlen, hpadlen]
      have := Nat.mod_lt m.length (y := 16) (by norm_num)
      omega
    · rw [hctlen, hpadlen]
      have := Nat.mod_lt m.length (y := 16) (by norm_num)
      omega
  rw [hctlen]
  unfold aesEncrypt
  rw [xorBytes_cancel _ _ hks]
  exact pkcs7unpad_pkcs7pad m

/-! ## Message-level operations (`fincrypt.py` lines 86-220) -/

/-- `sign_number` (`fincrypt.py` lines 86-98), ephemeral scalar explicit. -/
def sign_number (k : Scalar) (num : Nat) (u : Scalar) : Option (Nat × Nat) :=
  dsaSign k num u

/-- `validate_number` (`fincrypt.py` lines 101-115); fails (`none`) where the
source raises while rebuilding the public point. -/
def validate_number (kx ky r s num : Nat) : Option Bool :=
  match pointFromPair kx ky with
  | none => none
  | some Q => some (dsaValidate Q r s num)

/-- `encrypt_message` (`fincrypt.py` lines 118-152) with the ephemeral ECIES
scalar `u` and the OAEP nonce `w` explicit; fails where the source raises
(invalid recipient point). -/
def encrypt_message (kx ky : Nat) (message : List Nat) (u : Scalar) (w : Nat) :
    Option ((Nat × Nat) × List Nat) :=
  match pointFromPair kx ky with
  | none => none
  | some Q =>
    let R := (eciesExchange u Q).1
    let S := (eciesExchange u Q).2
    some ((xcoord R, ycoord R),
      aesEncrypt (aesKeyOf S) (ivOf S) (oaep_pad w message 32))

/-- `decrypt_message` (`fincrypt.py` lines 155-182); fails (`none`) where the
source raises: missing key integers, invalid point, AES failure, or OAEP
failure. -/
def decrypt_message (k : Scalar) (encrypted_key encrypted_message : List Nat) :
    Option (List Nat) :=
  match encrypted_key[0]? with
  | none => none
  | some rx =>
  match encrypted_key[1]? with
  | none => none
  | some ry =>
  match pointFromPair rx ry with
  | none => none
  | some R =>
    let S := eciesRecover R k
    match aesDecrypt (aesKeyOf S) (ivOf S) encrypted_message with
    | none => none
    | some padded => oaep_unpad padded 32

/-- `sign_message` (`fincrypt.py` lines 185-200), ephemeral scalar explicit. -/
def sign_message (k : Scalar) (message : List Nat) (u : Scalar) :
    Option (Nat × Nat) :=
  match (get_blocks (SHA3_512 message) 1024)[0]? with
  | none => none
  | some z => sign_number k z u

/-- `authenticate_message` (`fincrypt.py` lines 203-220).  The plaintext
argument is the raw result of the decryption attempt: when it is `None` the
source call `sha.SHA3_512(None)` raises `TypeError` (caught by the caller),
modelled as `none`; a too-short signature list raises `IndexError`. -/
def authenticate_message (kx ky : Nat) (plaintext : Option (List Nat))
    (signature : List Nat) : Option Bool :=
  match plaintext with
  | none => none
  | some m =>
  match (get_blocks (SHA3_512 m) 1024)[0]? with
  | none => none
  | some z =>
  match signature[0]? with
  | none => none
  | some r =>
  match signature[1]? with
  | none => none
  | some s => validate_number kx ky r s z

/-! ## Top-level orchestration (`fincrypt.py` lines 305-401) -/

/-- `encrypt_and_sign` (`fincrypt.py` lines 305-351) with all random draws
explicit (`u`: ECIES ephemeral, `w`: OAEP nonce, `v`: ECDSA ephemeral).
`Except.error` is the `FinCryptDecodingError` raised on malformed keyfiles or
an encryption failure; a rejected ECDSA ephemeral (which the source's signing
loop would simply redraw) is also surfaced as `Except.error`. -/
def encrypt_and_sign (message : List Nat) (recipient_key signer_key : List Nat)
    (u : Scalar) (w : Nat) (v : Scalar) : Except Unit (List Nat) :=
  match read_public_key recipient_key with
  | none => .error ()
  | some rk =>
  match read_private_key signer_key with
  | none => .error ()
  | some sk =>
  match encrypt_message rk.kx rk.ky message u w with
  | none => .error ()
  | some (ek, ct) =>
  match sign_message ((sk.k : Nat) : Scalar) message v with
  | none => .error ()
  | some (r, s) =>
  .ok (rsEncode 8 (encodeEnvelope ⟨ct, [ek.1, ek.2], [r, s]⟩))

/-- The body of `decrypt_and_verify` after the two keyfiles have been read
(`fincrypt.py` lines 381-401): Reed–Solomon decode and DER decode under one
`try` (`(None, False)` on failure), then the decryption attempt (`None` on
failure), then the authentication attempt (`False` on failure — including
the `TypeError` raised when the plaintext is `None`). -/
def decrypt_and_verify_core (priv : PrivKeyRec) (pub : PubKeyRec)
    (message : List Nat) : Option (List Nat) × Bool :=
  match rsDecode 8 message with
  | none => (none, false)
  | some m1 =>
  match decodeEnvelope m1 with
  | none => (none, false)
  | some env =>
    let pt := decrypt_message ((priv.k : Nat) : Scalar) env.key env.message
    (pt, (authenticate_message pub.kx pub.ky pt env.signature).getD false)

/-- `decrypt_and_verify` (`fincrypt.py` lines 354-401).  `Except.error` is
the `FinCryptDecodingError` raised on a malformed keyfile. -/
def decrypt_and_verify (message : List Nat) (sender_key private_key : List Nat) :
    Except Unit (Option (List Nat) × Bool) :=
  match read_private_key private_key with
  | none => .error ()
  | some priv =>
  match read_public_key sender_key with
  | none => .error ()
  | some pub => .ok (decrypt_and_verify_core priv pub message)

/-! ## Claims C6, C3, C4 -/

/-- Claim C6: in both `encrypt_message` and `decrypt_message` the symmetric
key material is `K = SHA3-512(utf8(decimal_string(S.x)))`, split as
`aes_key = K[0..32]` (32 bytes) and `iv = K[32..48]` (16 bytes), and the two
sides derive the same 48 bytes whenever the keypair and peer correspond
(`recover(u·G, b) = exchange-secret(u, b·G)`). -/
theorem c6_key_material_derivation (b u : Scalar) :
    eciesRecover (eciesExchange u (pmul b G)).1 b = (eciesExchange u (pmul b G)).2 ∧
    kdfMaterial ((eciesExchange u (pmul b G)).2) =
      SHA3_512 (decimalAscii (xcoord ((eciesExchange u (pmul b G)).2))) ∧
    aesKeyOf ((eciesExchange u (pmul b G)).2) =
      (kdfMaterial ((eciesExchange u (pmul b G)).2)).take 32 ∧
    ivOf ((eciesExchange u (pmul b G)).2) =
      ((kdfMaterial ((eciesExchange u (pmul b G)).2)).drop 32).take 16 ∧
    (aesKeyOf ((eciesExchange u (pmul b G)).2)).length = 32 ∧
    (ivOf ((eciesExchange u (pmul b G)).2)).length = 16 ∧
    aesKeyOf ((eciesExchange u (pmul b G)).2) ++
        ivOf ((eciesExchange u (pmul b G)).2) =
      (kdfMaterial ((eciesExchange u (pmul b G)).2)).take 48 := by
  have hlen : (kdfMaterial ((eciesExchange u (pmul b G)).2)).length = 64 :=
    length_SHA3_512 _
  refine ⟨?_, rfl, rfl, rfl, ?_, ?_, ?_⟩
  · show pmul b (pmul u G) = pmul u (pmul b G)
    unfold pmul G
    ring
  · unfold aesKeyOf
    rw [List.length_take, hlen]
    omega
  · unfold ivOf
    rw [List.length_take, List.length_drop, hlen]
    omega
  · unfold aesKeyOf ivOf
    have h48 : (48 : Nat) = 32 + 16 := by norm_num
    rw [h48, List.take_add]

/-- Claim C3: every pair returned by the decrypt path satisfies
`verified = true → plaintext ≠ none`; in particular, whenever the inner
decryption step fails (on a blob whose outer frames decoded), the result is
exactly `(none, false)`. -/
theorem c3_verified_implies_plaintext (priv : PrivKeyRec) (pub : PubKeyRec)
    (blob : List Nat) :
    (∀ pt v, decrypt_and_verify_core priv pub blob = (pt, v) →
      v = true → pt ≠ none) ∧
    (∀ env, (rsDecode 8 blob).bind decodeEnvelope = some env →
      decrypt_message ((priv.k : Nat) : Scalar) env.key env.message = none →
      decrypt_and_verify_core priv pub blob = (none, false)) := by
  constructor
  · intro pt v he hv
    unfold decrypt_and_verify_core at he
    cases h1 : rsDecode 8 blob with
    | none =>
      rw [h1] at he
      dsimp only at he
      injection he with hpt hvv
      rw [← hvv] at hv
      exact absurd hv (by simp)
    | some m1 =>
      rw [h1] at he
      dsimp only at he
      cases h2 : decodeEnvelope m1 with
      | none =>
        rw [h2] at he
        dsimp only at he
        injection he with hpt hvv
        rw [← hvv] at hv
        exact absurd hv (by simp)
      | some env =>
        rw [h2] at he
        dsimp only at he
        injection he with hpt hvv
        cases hd : decrypt_message ((priv.k : Nat) : Scalar) env.key env.message with
        | none =>
          rw [hd] at hvv
          have : (authenticate_message pub.kx pub.ky none env.signature).getD false
              = false := rfl
          rw [this] at hvv
          rw [← hvv] at hv
          exact absurd hv (by simp)
        | some m =>
          rw [hd] at hpt
          rw [← hpt]
          simp
  · intro env henv hdec
    unfold decrypt_and_verify_core
    cases h1 : rsDecode 8 blob with
    | none => simp [h1] at henv
    | some m1 =>
      rw [h1] at henv
      rw [Option.some_bind] at henv
      dsimp only
      rw [henv]
      dsimp only
      rw [hdec]
      rfl

def c3WitnessEnv : FinCryptMsg := ⟨List.replicate 16 0, [99, 0], [1, 1]⟩

def c3WitnessBlob : List Nat := rsEncode 8 (encodeEnvelope c3WitnessEnv)

theorem c3_verified_implies_plaintext_witness :
    decrypt_and_verify_core ⟨3, [], []⟩ ⟨5, 3, [], []⟩ c3WitnessBlob =
      (none, false) :=
  (c3_verified_implies_plaintext ⟨3, [], []⟩ ⟨5, 3, [], []⟩ c3WitnessBlob).2
    c3WitnessEnv (by decide) (by decide)

/-- Claim C4: with well-formed keyfiles, every blob whose outer Reed–Solomon
decoding or DER envelope decoding fails makes `decrypt_and_verify` return
`(none, false)` — an ordinary return (`Except.ok`), not an exception. -/
theorem c4_malformed_envelope_returns (blob sender_key private_key : List Nat)
    (priv : PrivKeyRec) (pub : PubKeyRec)
    (hpriv : read_private_key private_key = some priv)
    (hpub : read_public_key sender_key = some pub)
    (hfail : (rsDecode 8 blob).bind decodeEnvelope = none) :
    decrypt_and_verify blob sender_key private_key = .ok (none, false) := by
  unfold decrypt_and_verify
  rw [hpriv]
  dsimp only
  rw [hpub]
  dsimp only
  unfold decrypt_and_verify_core
  cases h1 : rsDecode 8 blob with
  | none => rfl
  | some m1 =>
    rw [h1] at hfail
    rw [Option.some_bind] at hfail
    dsimp only
    rw [hfail]

def c4PrivTxt : List Nat := armorPriv (b64encode (encodePrivKey ⟨3, [78], [69]⟩))

def c4PubTxt : List Nat :=
  armorPub (b64encode (rsEncode 30 (encodePubKey ⟨5, 3, [78], [69]⟩)))

theorem c4_malformed_envelope_returns_witness :
    decrypt_and_verify [] c4PubTxt c4PrivTxt = .ok (none, false) :=
  c4_malformed_envelope_returns [] c4PubTxt c4PrivTxt ⟨3, [78], [69]⟩
    ⟨5, 3, [78], [69]⟩ (by decide) (by decide) (by decide)

/-! ## Claim C1: full round trip -/

theorem mem_encBytes {b : List Nat} (hb : ∀ x ∈ b, x < 256) :
    ∀ x ∈ encBytes b, x < 256 := by
  intro x hx
  simp only [encBytes, List.mem_append] at hx
  rcases hx with hx | hx
  · exact mem_natToBytesLE hx
  · exact hb x hx

theorem mem_encNat (v : Nat) : ∀ x ∈ encNat v, x < 256 := by
  intro x hx
  exact mem_encBytes (fun y hy => mem_natToBytesLE hy) _ hx

theorem mem_encodePubKey (r : PubKeyRec) (hn : ∀ x ∈ r.name, x < 256)
    (he : ∀ x ∈ r.email, x < 256) : ∀ x ∈ encodePubKey r, x < 256 := by
  intro x hx
  simp only [encodePubKey, List.mem_append] at hx
  rcases hx with hx | hx | hx | hx
  · exact mem_encNat _ _ hx
  · exact mem_encNat _ _ hx
  · exact mem_encBytes hn _ hx
  · exact mem_encBytes he _ hx

theorem mem_encodePrivKey (r : PrivKeyRec) (hn : ∀ x ∈ r.name, x < 256)
    (he : ∀ x ∈ r.email, x < 256) : ∀ x ∈ encodePrivKey r, x < 256 := by
  intro x hx
  simp only [encodePrivKey, List.mem_append] at hx
  rcases hx with hx | hx | hx
  · exact mem_encNat _ _ hx
  · exact mem_encBytes hn _ hx
  · exact mem_encBytes he _ hx

theorem encodePrivKey_ne_nil (r : PrivKeyRec) : encodePrivKey r ≠ [] := by
  intro h
  have := congrArg List.length h
  simp [encodePrivKey, encNat, encBytes, length_natToBytesLE] at this

/-- The public-key record of the keypair with private scalar `s`. -/
def mkPubKeyRec (s : Scalar) : PubKeyRec :=
  ⟨xcoord (pmul s G), ycoord (pmul s G), [78], [69]⟩

/-- A well-formed armored public keyfile for the keypair with scalar `s`. -/
def mkPubKeyfile (s : Scalar) : List Nat :=
  armorPub (b64encode (rsEncode 30 (encodePubKey (mkPubKeyRec s))))

/-- The private-key record of the keypair with private scalar `s`. -/
def mkPrivKeyRec (s : Scalar) : PrivKeyRec := ⟨s.val, [78], [69]⟩

/-- A well-formed armored private keyfile for the keypair with scalar `s`. -/
def mkPrivKeyfile (s : Scalar) : List Nat :=
  armorPriv (b64encode (encodePrivKey (mkPrivKeyRec s)))

theorem curveN_lt_pow4 : curveN < 256 ^ 4 := by norm_num [curveN]

theorem read_public_key_mk (s : Scalar) :
    read_public_key (mkPubKeyfile s) = some (mkPubKeyRec s) := by
  unfold read_public_key mkPubKeyfile
  rw [read_public_key_frame_armor (encodePubKey (mkPubKeyRec s))
    (mem_encodePubKey (mkPubKeyRec s)
      (by intro x hx; have hx78 : x = 78 := (by simpa [mkPubKeyRec] using hx); omega)
      (by intro x hx; have hx69 : x = 69 := (by simpa [mkPubKeyRec] using hx); omega))]
  dsimp only
  apply decodePubKey_encodePubKey
  · show xcoord (pmul s G) < 256 ^ 4
    exact lt_trans (ZMod.val_lt _) curveN_lt_pow4
  · show (pmul s G).val * (pmul s G).val % curveN < 256 ^ 4
    exact lt_trans (Nat.mod_lt _ (by norm_num [curveN])) curveN_lt_pow4
  · show ([78] : List Nat).length < 256 ^ 4
    norm_num
  · show ([69] : List Nat).length < 256 ^ 4
    norm_num

theorem read_private_key_mk (s : Scalar) :
    read_private_key (mkPrivKeyfile s) = some (mkPrivKeyRec s) := by
  unfold read_private_key mkPrivKeyfile
  rw [read_private_key_frame_armor (encodePrivKey (mkPrivKeyRec s))
    (mem_encodePrivKey (mkPrivKeyRec s)
      (by intro x hx; have hx78 : x = 78 := (by simpa [mkPrivKeyRec] using hx); omega)
      (by intro x hx; have hx69 : x = 69 := (by simpa [mkPrivKeyRec] using hx); omega))
    (encodePrivKey_ne_nil _)]
  dsimp only
  apply decodePrivKey_encodePrivKey
  · show s.val < 256 ^ 4
    exact lt_trans (ZMod.val_lt _) curveN_lt_pow4
  · show ([78] : List Nat).length < 256 ^ 4
    norm_num
  · show ([69] : List Nat).length < 256 ^ 4
    norm_num

/-- The integer signed and verified: the SHA3-512 digest of the message read
as one big base-256 block (`fincrypt.py` lines 196-198 and 216-218). -/
def messageDigestInt (m : List Nat) : Nat := blockNum (SHA3_512 m)

theorem get_blocks_SHA3 (m : List Nat) :
    (get_blocks (SHA3_512 m) 1024)[0]? = some (messageDigestInt m) := by
  have hlen := length_SHA3_512 m
  have hne : SHA3_512 m ≠ [] := by
    intro h; rw [h] at hlen; simp at hlen
  rw [get_blocks_single _ hne (by omega)]
  rfl

theorem dsaSign_bounds {k u : Scalar} {z r s : Nat}
    (h : dsaSign k z u = some (r, s)) : r < curveN ∧ s < curveN := by
  unfold dsaSign at h
  set rS : Scalar := ((xcoord (pmul u G) : Nat) : Scalar) with hrS
  set sS : Scalar := sInv u * ((z : Scalar) + rS * k) with hsS
  by_cases hzero : rS = 0 ∨ sS = 0
  · rw [if_pos hzero] at h; exact absurd h (by simp)
  · rw [if_neg hzero] at h
    have hinj := Option.some.inj h
    obtain ⟨h1, h2⟩ : rS.val = r ∧ sS.val = s :=
      ⟨congrArg Prod.fst hinj, congrArg Prod.snd hinj⟩
    exact ⟨h1 ▸ ZMod.val_lt rS, h2 ▸ ZMod.val_lt sS⟩

theorem length_keystream (key iv : List Nat) (len : Nat) :
    (keystream key iv len).length = len := length_natToBytesLE _ _

theorem length_aesEncrypt (key iv m : List Nat) :
    (aesEncrypt key iv m).length = (pkcs7pad m).length := by
  unfold aesEncrypt
  rw [length_xorBytes, length_keystream]
  omega

theorem encrypt_message_coords (b u : Scalar) (m : List Nat) (w : Nat) :
    encrypt_message (xcoord (pmul b G)) (ycoord (pmul b G)) m u w =
      some ((xcoord (pmul u G), ycoord (pmul u G)),
        aesEncrypt (aesKeyOf (pmul u (pmul b G))) (ivOf (pmul u (pmul b G)))
          (oaep_pad w m 32)) := by
  unfold encrypt_message
  rw [pointFromPair_coords (pmul b G)]
  rfl

theorem decrypt_message_roundtrip (b u : Scalar) (m : List Nat) (w : Nat)
    (hm : ∀ x ∈ m, x < 256) (hw : w < 256 ^ 32) :
    decrypt_message b [xcoord (pmul u G), ycoord (pmul u G)]
      (aesEncrypt (aesKeyOf (pmul u (pmul b G))) (ivOf (pmul u (pmul b G)))
        (oaep_pad w m 32)) = some m := by
  unfold decrypt_message
  simp only [List.getElem?_cons_zero, List.getElem?_cons_succ]
  rw [pointFromPair_coords (pmul u G)]
  dsimp only
  have hrec : eciesRecover (pmul u G) b = pmul u (pmul b G) := by
    unfold eciesRecover pmul G
    ring
  rw [hrec]
  rw [aesDecrypt_aesEncrypt]
  exact oaep_roundtrip m w hm hw

theorem sign_message_eq (k : Scalar) (m : List Nat) (v : Scalar) :
    sign_message k m v = dsaSign k (messageDigestInt m) v := by
  unfold sign_message
  rw [get_blocks_SHA3]
  rfl

theorem authenticate_roundtrip (a v : Scalar) (m : List Nat) (r s : Nat)
    (hrs : dsaSign a (messageDigestInt m) v = some (r, s)) :
    authenticate_message (xcoord (pmul a G)) (ycoord (pmul a G)) (some m) [r, s] =
      some true := by
  unfold authenticate_message
  dsimp only
  rw [get_blocks_SHA3]
  dsimp only
  simp only [List.getElem?_cons_zero, List.getElem?_cons_succ]
  unfold validate_number
  rw [pointFromPair_coords (pmul a G)]
  dsimp only
  rw [dsaValidate_dsaSign a v (messageDigestInt m) r s hrs]

/-- Claim C1: for every pair of well-formed keypairs (signer scalar `a`,
recipient scalar `b`, both in `[1, n-1]`, public keys `a·G`, `b·G` carried in
well-formed armored keyfiles) and every byte string `m` of length at most
`2^20`, decrypting what `encrypt_and_sign` produced returns exactly
`(m, true)`.  The random draws are explicit: `u` the ECIES ephemeral, `w` the
OAEP nonce (any value fitting its 32-byte slot, which covers every drawable
nonce), `v` an ECDSA ephemeral accepted by the signing loop (the source
redraws until one is). -/
theorem c1_encrypt_sign_decrypt_verify_roundtrip (a b u v : Scalar) (w : Nat)
    (m : List Nat) (ha : a ≠ 0) (hb : b ≠ 0) (hu : u ≠ 0)
    (hw : w < 2 ^ (8 * 32)) (hm : ∀ x ∈ m, x < 256) (hlen : m.length ≤ 2 ^ 20)
    (hsig : (dsaSign a (messageDigestInt m) v).isSome = true) :
    ∃ blob,
      encrypt_and_sign m (mkPubKeyfile b) (mkPrivKeyfile a) u w v = .ok blob ∧
      decrypt_and_verify blob (mkPubKeyfile a) (mkPrivKeyfile b) =
        .ok (some m, true) := by
  obtain ⟨rs, hrs⟩ := Option.isSome_iff_exists.mp hsig
  obtain ⟨r, s⟩ := rs
  have hw' : w < 256 ^ 32 := by rw [pow256_eq_two_pow]; exact hw
  set CT := aesEncrypt (aesKeyOf (pmul u (pmul b G))) (ivOf (pmul u (pmul b G)))
    (oaep_pad w m 32) with hCT
  set env : FinCryptMsg :=
    ⟨CT, [xcoord (pmul u G), ycoord (pmul u G)], [r, s]⟩ with henvdef
  refine ⟨rsEncode 8 (encodeEnvelope env), ?_, ?_⟩
  · unfold encrypt_and_sign
    rw [read_public_key_mk b]
    dsimp only
    rw [read_private_key_mk a]
    dsimp only [mkPubKeyRec, mkPrivKeyRec]
    rw [encrypt_message_coords b u m w]
    dsimp only
    have hsigneq : sign_message ((ZMod.val a : Nat) : Scalar) m v = some (r, s) := by
      rw [ZMod.natCast_rightInverse a, sign_message_eq]
      exact hrs
    rw [hsigneq]
  · unfold decrypt_and_verify
    rw [read_private_key_mk b]
    dsimp only
    rw [read_public_key_mk a]
    dsimp only
    unfold decrypt_and_verify_core
    rw [rsDecode_rsEncode]
    dsimp only
    have hctlen : CT.length < 256 ^ 4 := by
      rw [hCT, length_aesEncrypt, length_pkcs7pad, length_oaep_pad]
      have h16 : ((m.length + 32) % 16 : Nat) < 16 := Nat.mod_lt _ (by norm_num)
      have h20 : (2 : Nat) ^ 20 + 64 < 256 ^ 4 := by norm_num
      omega
    have henvrt : decodeEnvelope (encodeEnvelope env) = some env := by
      apply decodeEnvelope_encodeEnvelope
      · exact hctlen
      · intro x hx
        have : x = xcoord (pmul u G) ∨ x = ycoord (pmul u G) := by
          simpa [henvdef] using hx
        rcases this with rfl | rfl
        · exact lt_trans (ZMod.val_lt _) curveN_lt_pow4
        · exact lt_trans (Nat.mod_lt _ (by norm_num [curveN])) curveN_lt_pow4
      · show ([xcoord (pmul u G), ycoord (pmul u G)] : List Nat).length < 256 ^ 4
        norm_num
      · intro x hx
        obtain ⟨hrlt, hslt⟩ := dsaSign_bounds hrs
        have : x = r ∨ x = s := by simpa [henvdef] using hx
        rcases this with rfl | rfl
        · exact lt_trans hrlt curveN_lt_pow4
        · exact lt_trans hslt curveN_lt_pow4
      · show ([r, s] : List Nat).length < 256 ^ 4
        norm_num
    rw [henvrt]
    dsimp only [mkPubKeyRec, mkPrivKeyRec]
    have hpt : decrypt_message ((ZMod.val b : Nat) : Scalar)
        [xcoord (pmul u G), ycoord (pmul u G)] CT = some m := by
      rw [ZMod.natCast_rightInverse b, hCT]
      exact decrypt_message_roundtrip b u m w hm hw'
    rw [hpt]
    rw [authenticate_roundtrip a v m r s hrs]
    rfl

theorem c1_encrypt_sign_decrypt_verify_roundtrip_witness :
    ((3 : Scalar) ≠ 0 ∧ (5 : Scalar) ≠ 0 ∧ (7 : Scalar) ≠ 0 ∧
      (9 : Nat) < 2 ^ (8 * 32) ∧ (∀ x ∈ [42], x < 256) ∧
      ([42] : List Nat).length ≤ 2 ^ 20 ∧
      (dsaSign 3 (messageDigestInt [42]) 2).isSome = true) ∧
    (∃ blob,
      encrypt_and_sign [42] (mkPubKeyfile 5) (mkPrivKeyfile 3) 7 9 2 =
        .ok blob ∧
      decrypt_and_verify blob (mkPubKeyfile 3) (mkPrivKeyfile 5) =
        .ok (some [42], true)) :=
  ⟨⟨by decide, by decide, by decide, by decide, by decide, by decide, by decide⟩,
   c1_encrypt_sign_decrypt_verify_roundtrip 3 5 7 2 9 [42] (by decide) (by decide)
     (by decide) (by decide) (by decide) (by decide) (by decide)⟩
